import Mathlib

/-!
# Formal model of the zzdats/go-cose COSE signing library

A shallow embedding of the Go package `cose` (COSE signing/verification,
RFC 8152 subset).  The pure parts of the source (header store, algorithm
registry, key/algorithm validation, ECDSA fixed-width signature encoding,
message assembly and the encode/decode orchestration) are translated
directly from the Go code.  External collaborators that the repository
only calls into (the canonical CBOR codec from `fxamacker/cbor`, the
raw crypto primitives from the Go standard library, and the hash
functions) are out of scope of the repository and are represented by
explicit models: a concrete injective self-delimiting codec and opaque
oracle functions carried by the keys.

Go machine integers are modelled as `Nat`/`Int`; `[]byte` is `List Nat`;
a Go `map[interface{}]interface{}` is a deterministic association list;
fallible Go functions return `Except`/`Option`; a Go panic is a
dedicated error value.
-/

set_option maxHeartbeats 4000000
set_option maxRecDepth 8000

namespace GoCose

/-- Error values of the package (Go error variables and ad-hoc errors).
`approxMismatch` models the `fmt.Errorf` produced by `Signer.Sign`
when the word-length sanity check fails, `codecError` stands for any
structural error surfaced by the external CBOR codec, `panicI2OSP`
models the panics in `i2osp`, and `nilPointer` models a nil-pointer
panic.  `resolver n` stands for an arbitrary caller-made error returned
by a `GetVerifiers` callback. -/
inductive MError where
  | verification
  | unsupportedAlgorithm
  | algorithmNotMatchKey
  | invalidEllipticCurve
  | minKeySize (bits : Nat)
  | unsupportedKeyType
  | unavailableHashAlgorithm
  | unsupportedMessageTag (tagNum : Nat)
  | invalidHeaderKeyType
  | approxMismatch (sBits rBits dBits : Nat)
  | codecError
  | panicI2OSP
  | nilPointer
  | resolver (code : Nat)
  deriving DecidableEq

/-- CBOR-like data values exchanged with the external codec: integers,
byte strings, text strings (a Go string is a byte sequence; we keep
Lean `String` and encode its characters), arrays, maps (entry lists;
the canonical codec makes the byte representation deterministic, the
model fixes a deterministic entry order instead) and tagged values. -/
inductive CVal where
  | int (i : Int)
  | bts (b : List Nat)
  | txt (s : String)
  | arr (l : List CVal)
  | mp (l : List (CVal × CVal))
  | tag (n : Nat) (v : CVal)

mutual
/-- Boolean equality on `CVal` (Go interface equality on decoded values). -/
def cvalBeq : CVal → CVal → Bool
  | .int a, .int b => a == b
  | .bts a, .bts b => a == b
  | .txt a, .txt b => a == b
  | .arr a, .arr b => cvalListBeq a b
  | .mp a, .mp b => cvalEntriesBeq a b
  | .tag n a, .tag m b => n == m && cvalBeq a b
  | _, _ => false

/-- Boolean equality on `CVal` lists. -/
def cvalListBeq : List CVal → List CVal → Bool
  | [], [] => true
  | a :: as, b :: bs => cvalBeq a b && cvalListBeq as bs
  | _, _ => false

/-- Boolean equality on `CVal` entry lists. -/
def cvalEntriesBeq : List (CVal × CVal) → List (CVal × CVal) → Bool
  | [], [] => true
  | (k1, v1) :: as, (k2, v2) :: bs =>
    cvalBeq k1 k2 && cvalBeq v1 v2 && cvalEntriesBeq as bs
  | _, _ => false
end

mutual
/-- Structural depth of a `CVal` (fuel bound for decoding and induction). -/
def sizeC : CVal → Nat
  | .int _ => 1
  | .bts _ => 1
  | .txt _ => 1
  | .arr l => sizeCL l + 1
  | .mp l => sizeCE l + 1
  | .tag _ v => sizeC v + 1

/-- Depth of an array body. -/
def sizeCL : List CVal → Nat
  | [] => 1
  | v :: vs => max (sizeC v) (sizeCL vs) + 1

/-- Depth of a map body. -/
def sizeCE : List (CVal × CVal) → Nat
  | [] => 1
  | (k, v) :: es => max (max (sizeC k) (sizeC v)) (sizeCE es) + 1
end

theorem sizeC_pos (v : CVal) : 1 ≤ sizeC v := by
  cases v <;> simp [sizeC]

theorem sizeCL_pos (l : List CVal) : 1 ≤ sizeCL l := by
  cases l <;> simp [sizeCL]

theorem sizeCE_pos (l : List (CVal × CVal)) : 1 ≤ sizeCE l := by
  cases l with
  | nil => simp [sizeCE]
  | cons e es => obtain ⟨k, v⟩ := e; simp [sizeCE]

theorem cvalBeq_iff_aux (fuel : Nat) :
    (∀ a b, sizeC a ≤ fuel → (cvalBeq a b = true ↔ a = b)) ∧
    (∀ as bs, sizeCL as ≤ fuel → (cvalListBeq as bs = true ↔ as = bs)) ∧
    (∀ as bs, sizeCE as ≤ fuel → (cvalEntriesBeq as bs = true ↔ as = bs)) := by
  induction fuel with
  | zero =>
    refine ⟨fun a _ h => ?_, fun as _ h => ?_, fun as _ h => ?_⟩
    · exact absurd h (by have := sizeC_pos a; omega)
    · exact absurd h (by have := sizeCL_pos as; omega)
    · exact absurd h (by have := sizeCE_pos as; omega)
  | succ f ih =>
    obtain ⟨ihV, ihL, ihE⟩ := ih
    refine ⟨fun a b h => ?_, fun as bs h => ?_, fun as bs h => ?_⟩
    · cases a with
      | int i => cases b <;> simp [cvalBeq]
      | bts x => cases b <;> simp [cvalBeq]
      | txt x => cases b <;> simp [cvalBeq]
      | arr l =>
        have hl : sizeCL l ≤ f := by simp [sizeC] at h; omega
        cases b <;> simp [cvalBeq]
        exact ihL l _ hl
      | mp l =>
        have hl : sizeCE l ≤ f := by simp [sizeC] at h; omega
        cases b <;> simp [cvalBeq]
        exact ihE l _ hl
      | tag n v =>
        have hv : sizeC v ≤ f := by simp [sizeC] at h; omega
        cases b <;> simp [cvalBeq]
        intro _
        exact ihV v _ hv
    · cases as with
      | nil => cases bs <;> simp [cvalListBeq]
      | cons v vs =>
        have hv : sizeC v ≤ f := by simp [sizeCL] at h; omega
        have hvs : sizeCL vs ≤ f := by simp [sizeCL] at h; omega
        cases bs <;> simp [cvalListBeq]
        rw [ihV v _ hv, ihL vs _ hvs]
    · cases as with
      | nil => cases bs <;> simp [cvalEntriesBeq]
      | cons e es =>
        obtain ⟨k, v⟩ := e
        have hk : sizeC k ≤ f := by simp [sizeCE] at h; omega
        have hv : sizeC v ≤ f := by simp [sizeCE] at h; omega
        have hes : sizeCE es ≤ f := by simp [sizeCE] at h; omega
        cases bs with
        | nil => simp [cvalEntriesBeq]
        | cons e' es' =>
          obtain ⟨k', v'⟩ := e'
          simp [cvalEntriesBeq, ihV k _ hk, ihV v _ hv, ihE es _ hes]

theorem cvalBeq_iff (a b : CVal) : cvalBeq a b = true ↔ a = b :=
  (cvalBeq_iff_aux (sizeC a)).1 a b le_rfl

instance : DecidableEq CVal := fun a b =>
  decidable_of_iff (cvalBeq a b = true) (cvalBeq_iff a b)

/-! ## The model codec

Modelled from the spec: the repository treats the CBOR encoder/decoder
as a trusted external canonical codec (deterministic, definite-length,
injective, decode inverts encode).  Any injective self-delimiting byte
code with those properties is a faithful stand-in; we use a simple
unary-based one so that everything reduces by `rfl`/`decide`. -/

/-- Self-delimiting encoding of a natural number. -/
def encNat (n : Nat) : List Nat := List.replicate n 0 ++ [1]

/-- Self-delimiting encoding of an integer (sign flag, then magnitude). -/
def encInt (i : Int) : List Nat := (if i < 0 then 1 else 0) :: encNat i.natAbs

mutual
/-- Encoding of a `CVal` (model of canonical CBOR marshalling). -/
def encCVal : CVal → List Nat
  | .int i => 0 :: encInt i
  | .bts b => 1 :: (encNat b.length ++ b)
  | .txt s => 2 :: (encNat s.data.length ++ s.data.map Char.toNat)
  | .arr l => 3 :: encCList l
  | .mp l => 4 :: encCEntries l
  | .tag n v => 5 :: (encNat n ++ encCVal v)

/-- Encoding of an array body. -/
def encCList : List CVal → List Nat
  | [] => [0]
  | v :: vs => 1 :: (encCVal v ++ encCList vs)

/-- Encoding of a map body. -/
def encCEntries : List (CVal × CVal) → List Nat
  | [] => [0]
  | (k, v) :: es => 1 :: (encCVal k ++ (encCVal v ++ encCEntries es))
end

/-- Decoder for `encNat`. -/
def decNat : List Nat → Option (Nat × List Nat)
  | 1 :: r => some (0, r)
  | 0 :: r =>
    match decNat r with
    | some (n, r') => some (n + 1, r')
    | none => none
  | _ => none

/-- Decoder for `encInt`. -/
def decInt : List Nat → Option (Int × List Nat)
  | s :: r =>
    match decNat r with
    | some (n, r') =>
      if s = 0 then some ((n : Int), r')
      else if s = 1 then some (-(n : Int), r')
      else none
    | none => none
  | [] => none

mutual
/-- Fuelled decoder for `encCVal`. -/
def decCVal : Nat → List Nat → Option (CVal × List Nat)
  | 0, _ => none
  | _ + 1, 0 :: r =>
    match decInt r with
    | some (i, r') => some (.int i, r')
    | none => none
  | _ + 1, 1 :: r =>
    match decNat r with
    | some (n, r') =>
      if n ≤ r'.length then some (.bts (r'.take n), r'.drop n) else none
    | none => none
  | _ + 1, 2 :: r =>
    match decNat r with
    | some (n, r') =>
      if n ≤ r'.length then
        some (.txt (String.mk ((r'.take n).map Char.ofNat)), r'.drop n)
      else none
    | none => none
  | f + 1, 3 :: r =>
    match decCList f r with
    | some (l, r') => some (.arr l, r')
    | none => none
  | f + 1, 4 :: r =>
    match decCEntries f r with
    | some (l, r') => some (.mp l, r')
    | none => none
  | f + 1, 5 :: r =>
    match decNat r with
    | some (n, r') =>
      match decCVal f r' with
      | some (v, r'') => some (.tag n v, r'')
      | none => none
    | none => none
  | _ + 1, _ => none

/-- Fuelled decoder for `encCList`. -/
def decCList : Nat → List Nat → Option (List CVal × List Nat)
  | 0, _ => none
  | _ + 1, 0 :: r => some ([], r)
  | f + 1, 1 :: r =>
    match decCVal f r with
    | some (v, r') =>
      match decCList f r' with
      | some (vs, r'') => some (v :: vs, r'')
      | none => none
    | none => none
  | _ + 1, _ => none

/-- Fuelled decoder for `encCEntries`. -/
def decCEntries : Nat → List Nat → Option (List (CVal × CVal) × List Nat)
  | 0, _ => none
  | _ + 1, 0 :: r => some ([], r)
  | f + 1, 1 :: r =>
    match decCVal f r with
    | some (k, r') =>
      match decCVal f r' with
      | some (v, r'') =>
        match decCEntries f r'' with
        | some (es, r3) => some ((k, v) :: es, r3)
        | none => none
      | none => none
    | none => none
  | _ + 1, _ => none
end

theorem decNat_enc (n : Nat) (rest : List Nat) :
    decNat (encNat n ++ rest) = some (n, rest) := by
  induction n with
  | zero => simp [encNat, decNat]
  | succ n ih =>
    have h : decNat (List.replicate n 0 ++ 1 :: rest) = some (n, rest) := by
      simpa [encNat] using ih
    simp [encNat, decNat, List.replicate_succ, h]

theorem decInt_enc (i : Int) (rest : List Nat) :
    decInt (encInt i ++ rest) = some (i, rest) := by
  by_cases h : i < 0
  · have habs : ((i.natAbs : Int)) = -i :=
      Int.ofNat_natAbs_of_nonpos (le_of_lt h)
    simp [encInt, decInt, h, decNat_enc, habs]
  · have habs : ((i.natAbs : Int)) = i :=
      Int.natAbs_of_nonneg (not_lt.mp h)
    simp [encInt, decInt, h, decNat_enc, habs]

theorem dec_enc (fuel : Nat) :
    (∀ v rest, sizeC v ≤ fuel → decCVal fuel (encCVal v ++ rest) = some (v, rest)) ∧
    (∀ l rest, sizeCL l ≤ fuel → decCList fuel (encCList l ++ rest) = some (l, rest)) ∧
    (∀ l rest, sizeCE l ≤ fuel → decCEntries fuel (encCEntries l ++ rest) = some (l, rest)) := by
  induction fuel with
  | zero =>
    refine ⟨fun v _ h => ?_, fun l _ h => ?_, fun l _ h => ?_⟩
    · exact absurd h (by have := sizeC_pos v; omega)
    · exact absurd h (by have := sizeCL_pos l; omega)
    · exact absurd h (by have := sizeCE_pos l; omega)
  | succ f ih =>
    obtain ⟨ihV, ihL, ihE⟩ := ih
    refine ⟨fun v rest h => ?_, fun l rest h => ?_, fun l rest h => ?_⟩
    · cases v with
      | int i => simp [encCVal, decCVal, decInt_enc]
      | bts b =>
        have e1 : encCVal (.bts b) ++ rest
            = 1 :: (encNat b.length ++ (b ++ rest)) := by
          simp [encCVal]
        rw [e1]
        have hlen : b.length ≤ (b ++ rest).length := by simp
        simp [decCVal, decNat_enc, hlen, List.take_left, List.drop_left]
      | txt s =>
        have e1 : encCVal (.txt s) ++ rest
            = 2 :: (encNat (s.data.map Char.toNat).length ++
                ((s.data.map Char.toNat) ++ rest)) := by
          simp [encCVal]
        rw [e1]
        have hlen : (s.data.map Char.toNat).length ≤
            ((s.data.map Char.toNat) ++ rest).length := by simp
        simp only [decCVal, decNat_enc, hlen, if_pos, List.take_left, List.drop_left]
        have hmap : ((s.data.map Char.toNat).map Char.ofNat) = s.data := by
          simp [List.map_map, Function.comp_def, Char.ofNat_toNat]
        rw [hmap]
      | arr l =>
        have hl : sizeCL l ≤ f := by simp [sizeC] at h; omega
        simp [encCVal, decCVal, ihL l rest hl]
      | mp l =>
        have hl : sizeCE l ≤ f := by simp [sizeC] at h; omega
        simp [encCVal, decCVal, ihE l rest hl]
      | tag n v' =>
        have hv : sizeC v' ≤ f := by simp [sizeC] at h; omega
        have e1 : encCVal (.tag n v') ++ rest
            = 5 :: (encNat n ++ (encCVal v' ++ rest)) := by
          simp [encCVal]
        rw [e1]
        simp [decCVal, decNat_enc, ihV v' rest hv]
    · cases l with
      | nil => simp [encCList, decCList]
      | cons v vs =>
        have hv : sizeC v ≤ f := by simp [sizeCL] at h; omega
        have hvs : sizeCL vs ≤ f := by simp [sizeCL] at h; omega
        have e1 : encCList (v :: vs) ++ rest
            = 1 :: (encCVal v ++ (encCList vs ++ rest)) := by
          simp [encCList]
        rw [e1]
        simp [decCList, ihV v _ hv, ihL vs rest hvs]
    · cases l with
      | nil => simp [encCEntries, decCEntries]
      | cons e es =>
        obtain ⟨k, v⟩ := e
        have hk : sizeC k ≤ f := by simp [sizeCE] at h; omega
        have hv : sizeC v ≤ f := by simp [sizeCE] at h; omega
        have hes : sizeCE es ≤ f := by simp [sizeCE] at h; omega
        have e1 : encCEntries ((k, v) :: es) ++ rest
            = 1 :: (encCVal k ++ (encCVal v ++ (encCEntries es ++ rest))) := by
          simp [encCEntries]
        rw [e1]
        simp [decCEntries, ihV k _ hk, ihV v _ hv, ihE es rest hes]

theorem size_le_enc (fuel : Nat) :
    (∀ v, sizeC v ≤ fuel → sizeC v ≤ (encCVal v).length) ∧
    (∀ l, sizeCL l ≤ fuel → sizeCL l ≤ (encCList l).length) ∧
    (∀ l, sizeCE l ≤ fuel → sizeCE l ≤ (encCEntries l).length) := by
  induction fuel with
  | zero =>
    refine ⟨fun v h => ?_, fun l h => ?_, fun l h => ?_⟩
    · exact absurd h (by have := sizeC_pos v; omega)
    · exact absurd h (by have := sizeCL_pos l; omega)
    · exact absurd h (by have := sizeCE_pos l; omega)
  | succ f ih =>
    obtain ⟨ihV, ihL, ihE⟩ := ih
    refine ⟨fun v h => ?_, fun l h => ?_, fun l h => ?_⟩
    · cases v with
      | int i =>
        simp only [sizeC, encCVal, encInt, encNat, List.length_cons]
        omega
      | bts b =>
        simp only [sizeC, encCVal, encNat, List.length_cons, List.length_append,
          List.length_replicate]
        omega
      | txt s =>
        simp only [sizeC, encCVal, encNat, List.length_cons, List.length_append,
          List.length_replicate]
        omega
      | arr l =>
        have hl : sizeCL l ≤ f := by simp [sizeC] at h; omega
        have h1 := ihL l hl
        simp only [sizeC, encCVal, List.length_cons]
        omega
      | mp l =>
        have hl : sizeCE l ≤ f := by simp [sizeC] at h; omega
        have h1 := ihE l hl
        simp only [sizeC, encCVal, List.length_cons]
        omega
      | tag n v' =>
        have hv : sizeC v' ≤ f := by simp [sizeC] at h; omega
        have h1 := ihV v' hv
        simp only [sizeC, encCVal, List.length_cons, List.length_append]
        omega
    · cases l with
      | nil => simp [encCList, sizeCL]
      | cons v vs =>
        have hv : sizeC v ≤ f := by simp [sizeCL] at h; omega
        have hvs : sizeCL vs ≤ f := by simp [sizeCL] at h; omega
        have h1 := ihV v hv
        have h2 := ihL vs hvs
        simp only [sizeCL, encCList, List.length_cons, List.length_append]
        omega
    · cases l with
      | nil => simp [encCEntries, sizeCE]
      | cons e es =>
        obtain ⟨k, v⟩ := e
        have hk : sizeC k ≤ f := by simp [sizeCE] at h; omega
        have hv : sizeC v ≤ f := by simp [sizeCE] at h; omega
        have hes : sizeCE es ≤ f := by simp [sizeCE] at h; omega
        have h1 := ihV k hk
        have h2 := ihV v hv
        have h3 := ihE es hes
        simp only [sizeCE, encCEntries, List.length_cons, List.length_append]
        omega

/-- Model of `encMode.Marshal` of the external codec. -/
def cborMarshal (v : CVal) : List Nat := encCVal v

/-- Model of `decMode.Unmarshal` of the external codec (the codec rejects
trailing data). -/
def cborUnmarshal (data : List Nat) : Except MError CVal :=
  match decCVal (data.length + 1) data with
  | some (v, []) => .ok v
  | some (_, _ :: _) => .error .codecError
  | none => .error .codecError

theorem cborUnmarshal_marshal (v : CVal) :
    cborUnmarshal (cborMarshal v) = .ok v := by
  have hsz : sizeC v ≤ (encCVal v).length :=
    (size_le_enc (sizeC v)).1 v le_rfl
  have h := (dec_enc ((encCVal v).length + 1)).1 v [] (by omega)
  simp only [List.append_nil] at h
  simp [cborUnmarshal, cborMarshal, h]

/-! ## Big-integer helpers (Go `math/big`)

`big.Int.BitLen`, `len(big.Int.Bits())` (the machine-word count, 64-bit
words), `big.Int.Bytes()` (minimal big-endian bytes) and
`big.Int.SetBytes` are modelled for non-negative integers, which is all
the repository uses them on.  Recursions are fuelled so that every
definition reduces in the kernel. -/

/-- Fuelled bit-length recursion. -/
def bitLenAux : Nat → Nat → Nat
  | 0, _ => 0
  | fuel + 1, n => if n = 0 then 0 else bitLenAux fuel (n / 2) + 1

/-- Go `(*big.Int).BitLen` for non-negative values. -/
def goBitLen (n : Nat) : Nat := bitLenAux n n

/-- Go `len((*big.Int).Bits())`: the number of 64-bit machine words of
the absolute value (no leading zero words). -/
def goWordLen (n : Nat) : Nat := if n = 0 then 0 else (goBitLen n + 63) / 64

/-- Fuelled little-endian base-256 digit extraction. -/
def bytesLEAux : Nat → Nat → List Nat
  | 0, _ => []
  | fuel + 1, n => if n = 0 then [] else n % 256 :: bytesLEAux fuel (n / 256)

/-- Go `(*big.Int).Bytes()`: minimal big-endian byte representation
(empty for zero). -/
def bytesBE (n : Nat) : List Nat := (bytesLEAux n n).reverse

/-- Go `(*big.Int).SetBytes`: interpret bytes as a big-endian unsigned
integer. -/
def fromBytesBE (l : List Nat) : Nat := l.foldl (fun acc d => acc * 256 + d) 0

theorem bitLenAux_eventually (fuel n : Nat) (h : n ≤ fuel) :
    ∀ fuel', n ≤ fuel' → bitLenAux fuel' n = bitLenAux fuel n := by
  induction fuel using Nat.strong_induction_on generalizing n with
  | _ fuel ih =>
    intro fuel' h'
    match fuel, fuel' with
    | 0, 0 => rfl
    | 0, f' + 1 =>
      have : n = 0 := by omega
      simp [bitLenAux, this]
    | f + 1, 0 =>
      have : n = 0 := by omega
      simp [bitLenAux, this]
    | f + 1, f' + 1 =>
      by_cases hz : n = 0
      · simp [bitLenAux, hz]
      · have hd : n / 2 ≤ f := by omega
        have hd' : n / 2 ≤ f' := by omega
        simp only [bitLenAux, hz, if_neg]
        rw [ih f (by omega) (n / 2) hd f' hd']

theorem goBitLen_zero : goBitLen 0 = 0 := rfl

theorem goBitLen_succ (n : Nat) (h : n ≠ 0) :
    goBitLen n = goBitLen (n / 2) + 1 := by
  unfold goBitLen
  cases n with
  | zero => exact absurd rfl h
  | succ m =>
    have h1 : (m + 1) / 2 ≤ m := by omega
    have e1 : bitLenAux (m + 1) (m + 1) = bitLenAux m ((m + 1) / 2) + 1 := by
      simp [bitLenAux]
    rw [e1, bitLenAux_eventually ((m + 1) / 2) ((m + 1) / 2) le_rfl m h1]

theorem lt_two_pow_goBitLen (n : Nat) : n < 2 ^ goBitLen n := by
  induction n using Nat.strong_induction_on with
  | _ n ih =>
    by_cases hz : n = 0
    · simp [hz, goBitLen_zero]
    · rw [goBitLen_succ n hz]
      have hlt : n / 2 < n := Nat.div_lt_self (by omega) (by omega)
      have := ih (n / 2) hlt
      have h2 : 2 ^ (goBitLen (n / 2) + 1) = 2 * 2 ^ goBitLen (n / 2) := by
        ring
      omega

theorem goBitLen_le (n k : Nat) (h : n < 2 ^ k) : goBitLen n ≤ k := by
  induction n using Nat.strong_induction_on generalizing k with
  | _ n ih =>
    by_cases hz : n = 0
    · simp [hz, goBitLen_zero]
    · rw [goBitLen_succ n hz]
      have hk : k ≠ 0 := by
        intro hk0
        rw [hk0] at h
        simp at h
        omega
      have hdiv : n / 2 < 2 ^ (k - 1) := by
        have h2 : 2 ^ k = 2 * 2 ^ (k - 1) := by
          conv_lhs => rw [show k = 1 + (k - 1) by omega]
          rw [pow_add]
          ring
        omega
      have := ih (n / 2) (Nat.div_lt_self (by omega) (by omega)) (k - 1) hdiv
      omega

theorem bytesLEAux_fold (fuel n : Nat) (h : n < 256 ^ fuel) :
    fromBytesBE (bytesLEAux fuel n).reverse = n := by
  induction fuel generalizing n with
  | zero =>
    simp at h
    simp [h, bytesLEAux, fromBytesBE]
  | succ f ih =>
    by_cases hz : n = 0
    · simp [hz, bytesLEAux, fromBytesBE]
    · have hdiv : n / 256 < 256 ^ f := by
        have h2 : 256 ^ (f + 1) = 256 * 256 ^ f := by ring
        rw [h2] at h
        omega
      have hrec := ih (n / 256) hdiv
      have e1 : bytesLEAux (f + 1) n = n % 256 :: bytesLEAux f (n / 256) := by
        simp [bytesLEAux, hz]
      rw [e1, List.reverse_cons]
      unfold fromBytesBE at hrec ⊢
      rw [List.foldl_append, hrec]
      simp
      omega

theorem bytesBE_fold (n : Nat) : fromBytesBE (bytesBE n) = n := by
  have h : n < 256 ^ n := by
    calc n < 2 ^ n := Nat.lt_two_pow n
    _ ≤ 256 ^ n := Nat.pow_le_pow_left (by omega) n
  exact bytesLEAux_fold n n h

theorem bytesLEAux_length (fuel n k : Nat) (h : n < 256 ^ k) :
    (bytesLEAux fuel n).length ≤ k := by
  induction fuel generalizing n k with
  | zero => simp [bytesLEAux]
  | succ f ih =>
    by_cases hz : n = 0
    · simp [hz, bytesLEAux]
    · have hk : k ≠ 0 := by
        intro hk0
        rw [hk0] at h
        simp at h
        omega
      have hdiv : n / 256 < 256 ^ (k - 1) := by
        have h2 : 256 ^ k = 256 * 256 ^ (k - 1) := by
          conv_lhs => rw [show k = 1 + (k - 1) by omega]
          rw [pow_add]
          ring
        omega
      have := ih (n / 256) (k - 1) hdiv
      have e1 : bytesLEAux (f + 1) n = n % 256 :: bytesLEAux f (n / 256) := by
        simp [bytesLEAux, hz]
      rw [e1, List.length_cons]
      omega

theorem bytesBE_length_le (n k : Nat) (h : n < 256 ^ k) :
    (bytesBE n).length ≤ k := by
  unfold bytesBE
  rw [List.length_reverse]
  exact bytesLEAux_length n n k h

/-! ## Signer helpers (Go `signer.go`) -/

/-- `curveByteSize`: the curve key size in bytes, rounded up. -/
def curveByteSize (bitSize : Nat) : Nat :=
  let s := bitSize / 8
  if bitSize % 8 > 0 then s + 1 else s

/-- `approxEqual`: whether `x` and `y` are equal within delta 1. -/
def approxEqual (x y : Nat) : Bool :=
  if x > y then decide (x - y ≤ 1) else decide (y - x ≤ 1)

/-- `i2osp`: convert a non-negative integer to an octet string of length
exactly `n`, left-padded with zeros; the Go code panics (modelled as
`none`) when `n = 0` or the value does not fit. -/
def i2osp (b n : Nat) : Option (List Nat) :=
  let octetString := bytesBE b
  if n = 0 ∨ octetString.length > n then none
  else some (List.replicate (n - octetString.length) 0 ++ octetString)

theorem i2osp_length (b n : Nat) (res : List Nat) (h : i2osp b n = some res) :
    res.length = n := by
  unfold i2osp at h
  by_cases hc : n = 0 ∨ (bytesBE b).length > n
  · simp [hc] at h
  · simp only [hc, if_neg, not_false_iff, Option.some.injEq] at h
    subst h
    simp only [List.length_append, List.length_replicate]
    omega

theorem i2osp_some (b n : Nat) (hn : n ≠ 0) (hb : b < 256 ^ n) :
    i2osp b n = some (List.replicate (n - (bytesBE b).length) 0 ++ bytesBE b) := by
  have hlen := bytesBE_length_le b n hb
  have hcond : ¬(n = 0 ∨ (bytesBE b).length > n) := by
    push_neg
    exact ⟨hn, by omega⟩
  simp [i2osp, hcond]

theorem fromBytesBE_append_zeros (k : Nat) (l : List Nat) :
    fromBytesBE (List.replicate k 0 ++ l) = fromBytesBE l := by
  unfold fromBytesBE
  rw [List.foldl_append]
  congr 1
  induction k with
  | zero => simp
  | succ k ih => simpa [List.replicate_succ]

theorem fromBytesBE_i2osp (b n : Nat) (res : List Nat)
    (h : i2osp b n = some res) : fromBytesBE res = b := by
  unfold i2osp at h
  by_cases hc : n = 0 ∨ (bytesBE b).length > n
  · simp [hc] at h
  · simp only [hc, if_neg, not_false_iff, Option.some.injEq] at h
    subst h
    rw [fromBytesBE_append_zeros, bytesBE_fold]

/-! ## Algorithm registry (Go `algorithm.go`) -/

/-- `algorithmType`: the required key family of an algorithm. -/
inductive AlgType where
  | unsupported
  | keyRSA
  | keyECDSA
  | keyED25519
  deriving DecidableEq

/-- `algorithm`: one registry entry.  `Hash` uses the Go `crypto.Hash`
enumeration values (`SHA256 = 5`, `SHA384 = 6`, `SHA512 = 7`, `0` = no
hash); `CurveBits` is the bit size of `KeyEllipticCurve` (`0` = nil). -/
structure MAlg where
  Name : String
  Value : Int
  Hash : Nat
  Typ : AlgType
  MinKeySize : Nat
  CurveBits : Nat
  deriving DecidableEq

/-- Go `crypto.SHA256`. -/
def hashSHA256 : Nat := 5

/-- Go `crypto.SHA384`. -/
def hashSHA384 : Nat := 6

/-- Go `crypto.SHA512`. -/
def hashSHA512 : Nat := 7

/-- The registry table `algorithms`, in source order.  Fields left at
their Go zero value are `0` / `unsupported`. -/
def algorithms : List MAlg := [
  ⟨"RS1", -65535, 0, .unsupported, 0, 0⟩,
  ⟨"WalnutDSA", -260, 0, .unsupported, 0, 0⟩,
  ⟨"RS512", -259, 0, .unsupported, 0, 0⟩,
  ⟨"RS384", -258, 0, .unsupported, 0, 0⟩,
  ⟨"RS256", -257, 0, .unsupported, 0, 0⟩,
  ⟨"ES256K", -47, 0, .unsupported, 0, 0⟩,
  ⟨"HSS-LMS", -46, 0, .unsupported, 0, 0⟩,
  ⟨"SHAKE256", -45, 0, .unsupported, 0, 0⟩,
  ⟨"SHA-512", -44, 0, .unsupported, 0, 0⟩,
  ⟨"SHA-384", -43, 0, .unsupported, 0, 0⟩,
  ⟨"RSAES-OAEP w/ SHA-512", -42, 0, .unsupported, 0, 0⟩,
  ⟨"RSAES-OAEP w/ SHA-256", -41, 0, .unsupported, 0, 0⟩,
  ⟨"RSAES-OAEP w/ RFC 8017 default parameters", -40, 0, .unsupported, 0, 0⟩,
  ⟨"PS512", -39, 7, .keyRSA, 2048, 0⟩,
  ⟨"PS384", -38, 6, .keyRSA, 2048, 0⟩,
  ⟨"PS256", -37, 5, .keyRSA, 2048, 0⟩,
  ⟨"ES512", -36, 7, .keyECDSA, 0, 521⟩,
  ⟨"ES384", -35, 6, .keyECDSA, 0, 384⟩,
  ⟨"ECDH-SS + A256KW", -34, 0, .unsupported, 0, 0⟩,
  ⟨"ECDH-SS + A192KW", -33, 0, .unsupported, 0, 0⟩,
  ⟨"ECDH-SS + A128KW", -32, 0, .unsupported, 0, 0⟩,
  ⟨"ECDH-ES + A256KW", -31, 0, .unsupported, 0, 0⟩,
  ⟨"ECDH-ES + A192KW", -30, 0, .unsupported, 0, 0⟩,
  ⟨"ECDH-ES + A128KW", -29, 0, .unsupported, 0, 0⟩,
  ⟨"ECDH-SS + HKDF-512", -28, 0, .unsupported, 0, 0⟩,
  ⟨"ECDH-SS + HKDF-256", -27, 0, .unsupported, 0, 0⟩,
  ⟨"ECDH-ES + HKDF-512", -26, 0, .unsupported, 0, 0⟩,
  ⟨"ECDH-ES + HKDF-256", -25, 0, .unsupported, 0, 0⟩,
  ⟨"SHAKE128", -18, 0, .unsupported, 0, 0⟩,
  ⟨"SHA-512/256", -17, 0, .unsupported, 0, 0⟩,
  ⟨"SHA-256", -16, 0, .unsupported, 0, 0⟩,
  ⟨"SHA-256/64", -15, 0, .unsupported, 0, 0⟩,
  ⟨"SHA-1", -14, 0, .unsupported, 0, 0⟩,
  ⟨"direct+HKDF-AES-256", -13, 0, .unsupported, 0, 0⟩,
  ⟨"direct+HKDF-AES-128", -12, 0, .unsupported, 0, 0⟩,
  ⟨"direct+HKDF-SHA-512", -11, 0, .unsupported, 0, 0⟩,
  ⟨"direct+HKDF-SHA-256", -10, 0, .unsupported, 0, 0⟩,
  ⟨"EdDSA", -8, 0, .keyED25519, 0, 0⟩,
  ⟨"ES256", -7, 5, .keyECDSA, 0, 256⟩,
  ⟨"direct", -6, 0, .unsupported, 0, 0⟩,
  ⟨"A256KW", -5, 0, .unsupported, 0, 0⟩,
  ⟨"A192KW", -4, 0, .unsupported, 0, 0⟩,
  ⟨"A128KW", -3, 0, .unsupported, 0, 0⟩,
  ⟨"A128GCM", 1, 0, .unsupported, 0, 0⟩,
  ⟨"A192GCM", 2, 0, .unsupported, 0, 0⟩,
  ⟨"A256GCM", 3, 0, .unsupported, 0, 0⟩,
  ⟨"HMAC 256/64", 4, 0, .unsupported, 0, 0⟩,
  ⟨"HMAC 256/256", 5, 0, .unsupported, 0, 0⟩,
  ⟨"HMAC 384/384", 6, 0, .unsupported, 0, 0⟩,
  ⟨"HMAC 512/512", 7, 0, .unsupported, 0, 0⟩,
  ⟨"AES-CCM-16-64-128", 10, 0, .unsupported, 0, 0⟩,
  ⟨"AES-CCM-16-64-256", 11, 0, .unsupported, 0, 0⟩,
  ⟨"AES-CCM-64-64-128", 12, 0, .unsupported, 0, 0⟩,
  ⟨"AES-CCM-64-64-256", 13, 0, .unsupported, 0, 0⟩,
  ⟨"AES-MAC 128/64", 14, 0, .unsupported, 0, 0⟩,
  ⟨"AES-MAC 256/64", 15, 0, .unsupported, 0, 0⟩,
  ⟨"ChaCha20/Poly1305", 24, 0, .unsupported, 0, 0⟩,
  ⟨"AES-MAC 128/128", 25, 0, .unsupported, 0, 0⟩,
  ⟨"AES-MAC 256/128", 26, 0, .unsupported, 0, 0⟩,
  ⟨"AES-CCM-16-128-128", 30, 0, .unsupported, 0, 0⟩,
  ⟨"AES-CCM-16-128-256", 31, 0, .unsupported, 0, 0⟩,
  ⟨"AES-CCM-64-128-128", 32, 0, .unsupported, 0, 0⟩,
  ⟨"AES-CCM-64-128-256", 33, 0, .unsupported, 0, 0⟩,
  ⟨"IV-GENERATION", 34, 0, .unsupported, 0, 0⟩]

/-- `getAlg`: look an algorithm up by name (first match). -/
def getAlg (name : String) : Option MAlg :=
  algorithms.find? (fun a => a.Name == name)

/-- `getAlgByValue`: look an algorithm up by numeric value (first match). -/
def getAlgByValue (value : Int) : Option MAlg :=
  algorithms.find? (fun a => a.Value == value)

/-! ## Header store (Go `header.go`)

A Go `map[interface{}]interface{}` is modelled as an association list
with at most one entry per key (`mapSet` removes the old binding).  Go
map iteration order is unspecified; the model fixes a deterministic
order, which is sound because the repository never depends on it. -/

/-- Model of a Go header map. -/
abbrev HMap := List (CVal × CVal)

/-- Key membership in a header map. -/
def mapHasKey (m : HMap) (k : CVal) : Bool := m.any (fun e => e.1 == k)

/-- Go map assignment `m[k] = v`. -/
def mapSet (m : HMap) (k v : CVal) : HMap :=
  m.filter (fun e => !(e.1 == k)) ++ [(k, v)]

/-- `Headers`: protected and unprotected header maps.  The Go field
names `protected`/`unprotected` are Lean keywords-ish, hence the `H`
suffix. -/
structure HeadersM where
  protectedH : HMap
  unprotectedH : HMap
  deriving DecidableEq

/-- `NewHeaders`. -/
def NewHeadersM : HeadersM := ⟨[], []⟩

/-- Common header name constants. -/
def HeaderAlgorithm : String := "alg"

/-- `crit`. -/
def HeaderCritical : String := "crit"

/-- `content type`. -/
def HeaderContentType : String := "content type"

/-- `kid`. -/
def HeaderKeyID : String := "kid"

/-- `IV`. -/
def HeaderIV : String := "IV"

/-- `Partial IV`. -/
def HeaderPartialIV : String := "Partial IV"

/-- `counter signature`. -/
def HeaderCounterSignature : String := "counter signature"

/-- `getCommonHeader`: the integer code of a common header name
(0 = not common). -/
def getCommonHeader (key : String) : Int :=
  if key = HeaderAlgorithm then 1
  else if key = HeaderCritical then 2
  else if key = HeaderContentType then 3
  else if key = HeaderKeyID then 4
  else if key = HeaderIV then 5
  else if key = HeaderPartialIV then 6
  else if key = HeaderCounterSignature then 7
  else 0

/-- The `int64` arm of `SetProtected`: for the algorithm label `1` a
string value is resolved through the registry to its numeric value. -/
def setProtInt (h : HeadersM) (label : Int) (value : CVal) : HeadersM :=
  let value :=
    if label = 1 then
      match value with
      | .txt name =>
        match getAlg name with
        | some a => .int a.Value
        | none => .txt name
      | v => v
    else value
  { h with protectedH := mapSet h.protectedH (.int label) value }

/-- `Headers.SetProtected`.  Go `int` and `int64` keys are both
modelled by `CVal.int`. -/
def SetProtectedM (h : HeadersM) (key value : CVal) : Except MError HeadersM :=
  match key with
  | .txt s =>
    if getCommonHeader s ≠ 0 then .ok (setProtInt h (getCommonHeader s) value)
    else .ok { h with protectedH := mapSet h.protectedH (.txt s) value }
  | .int i => .ok (setProtInt h i value)
  | _ => .error .invalidHeaderKeyType

/-- The `int64` arm of `Headers.Set`: `alg` (1) and `crit` (2) are
forced into the protected map. -/
def setIntM (h : HeadersM) (label : Int) (value : CVal) : Except MError HeadersM :=
  if label = 1 ∨ label = 2 then .ok (setProtInt h label value)
  else .ok { h with unprotectedH := mapSet h.unprotectedH (.int label) value }

/-- `Headers.Set`: store in the unprotected map, except that common
names are normalised to their integer code and `alg`/`crit` always land
in the protected map. -/
def SetM (h : HeadersM) (key value : CVal) : Except MError HeadersM :=
  match key with
  | .txt s =>
    if getCommonHeader s ≠ 0 then setIntM h (getCommonHeader s) value
    else .ok { h with unprotectedH := mapSet h.unprotectedH (.txt s) value }
  | .int i => setIntM h i value
  | _ => .error .invalidHeaderKeyType

/-- `Headers.Merge`: copy `other.protected` into the protected map,
then copy `other.unprotected` skipping labels already protected. -/
def MergeM (h other : HeadersM) : HeadersM :=
  let p := other.protectedH.foldl (fun acc e => mapSet acc e.1 e.2) h.protectedH
  let u := other.unprotectedH.foldl
    (fun acc e => if mapHasKey p e.1 then acc else mapSet acc e.1 e.2)
    h.unprotectedH
  ⟨p, u⟩

/-- `MergeHeaders`: merge both arguments into a fresh instance. -/
def MergeHeadersM (h1 h2 : HeadersM) : HeadersM :=
  MergeM (MergeM NewHeadersM h1) h2

theorem mapHasKey_mapSet (m : HMap) (k v k' : CVal) :
    mapHasKey (mapSet m k v) k' = (mapHasKey m k' || (k == k')) := by
  induction m with
  | nil => by_cases hkk : (k == k') <;> simp [mapHasKey, mapSet, hkk]
  | cons e es ih =>
    by_cases hek : (e.1 == k)
    · have he : e.1 = k := eq_of_beq hek
      have hstep : mapSet (e :: es) k v = mapSet es k v := by
        simp [mapSet, hek]
      rw [hstep, ih]
      by_cases hek' : (e.1 == k')
      · have hkk : k = k' := by rw [← he]; exact eq_of_beq hek'
        subst hkk
        simp [mapHasKey, List.any_cons]
      · have hekf : (e.1 == k') = false := by simpa using hek'
        simp [mapHasKey, List.any_cons, hekf]
    · have hstep : mapSet (e :: es) k v = e :: mapSet es k v := by
        simp [mapSet, hek]
      rw [hstep]
      simp only [mapHasKey, List.any_cons] at ih ⊢
      rw [ih, Bool.or_assoc]

theorem hasKey_foldl_set (l acc : HMap) (k : CVal) :
    mapHasKey (l.foldl (fun a e => mapSet a e.1 e.2) acc) k
      = (mapHasKey acc k || mapHasKey l k) := by
  induction l generalizing acc with
  | nil => simp [mapHasKey]
  | cons e es ih =>
    simp only [List.foldl_cons]
    rw [ih, mapHasKey_mapSet]
    simp only [mapHasKey, List.any_cons]
    rw [Bool.or_assoc]

theorem hasKey_foldl_setSkip (P l acc : HMap) (k : CVal) :
    mapHasKey (l.foldl
      (fun a e => if mapHasKey P e.1 then a else mapSet a e.1 e.2) acc) k
      = (mapHasKey acc k || (mapHasKey l k && !mapHasKey P k)) := by
  induction l generalizing acc with
  | nil => simp [mapHasKey]
  | cons e es ih =>
    simp only [List.foldl_cons]
    by_cases hp : mapHasKey P e.1
    · rw [if_pos hp, ih]
      by_cases hek : (e.1 == k)
      · have he : e.1 = k := eq_of_beq hek
        rw [he] at hp
        simp only [mapHasKey] at hp
        simp [mapHasKey, List.any_cons, hek, hp]
      · have hekf : (e.1 == k) = false := by simpa using hek
        simp [mapHasKey, List.any_cons, hekf]
    · rw [if_neg hp, ih, mapHasKey_mapSet]
      by_cases hek : (e.1 == k)
      · have he : e.1 = k := eq_of_beq hek
        rw [he] at hp
        simp only [Bool.not_eq_true, mapHasKey] at hp
        simp [mapHasKey, List.any_cons, hek, hp]
      · have hekf : (e.1 == k) = false := by simpa using hek
        simp [mapHasKey, List.any_cons, hekf, Bool.or_assoc]

/-! ## Keys and crypto primitives

Modelled from the spec: raw asymmetric-key primitives (RSA-PSS, ECDSA
point arithmetic, Ed25519) are trusted external collaborators.  Each
modelled key carries opaque oracle functions for them (the randomness
source is folded into the oracle); the repository's own code around the
oracles is translated from `signer.go`/`verifier.go`. -/

/-- Go `(*rsa.PublicKey).Size()`: modulus byte length. -/
def rsaSize (modulus : Nat) : Nat := (goBitLen modulus + 7) / 8

/-- An RSA public key: modulus plus the external `rsa.VerifyPSS`
oracle (pre-hashed digest, signature). -/
structure MRsaPub where
  modulus : Nat
  verifyO : List Nat → List Nat → Bool

/-- An RSA private key: its public part plus the external `rsa.SignPSS`
oracle. -/
structure MRsaPriv where
  pub : MRsaPub
  signO : List Nat → List Nat

/-- An ECDSA public key: curve bit size plus the external `ecdsa.Verify`
oracle (pre-hashed digest, r, s). -/
structure MEcPub where
  curveBits : Nat
  verifyO : List Nat → Nat → Nat → Bool

/-- An ECDSA private key: public part, private scalar `D`, and the
external `ecdsa.Sign` oracle returning `(r, s)`. -/
structure MEcPriv where
  pub : MEcPub
  d : Nat
  signO : List Nat → Nat × Nat

/-- An Ed25519 public key with its external verify oracle. -/
structure MEdPub where
  verifyO : List Nat → List Nat → Bool

/-- An Ed25519 private key with its external sign oracle. -/
structure MEdPriv where
  pub : MEdPub
  signO : List Nat → List Nat

/-- A `crypto.PrivateKey` of one of the three supported families. -/
inductive MPrivKey where
  | rsa (k : MRsaPriv)
  | ec (k : MEcPriv)
  | ed25519 (k : MEdPriv)

/-- A `crypto.PublicKey` of one of the three supported families. -/
inductive MPubKey where
  | rsa (k : MRsaPub)
  | ec (k : MEcPub)
  | ed25519 (k : MEdPub)

/-- Modelled from the spec: `hash.Available()` for the hash functions
registered in a binary linking this package (SHA-256 via the package's
own import, SHA-384/SHA-512 via the `crypto/ecdsa`/`crypto/ed25519`
dependencies). -/
def hashAvailable (h : Nat) : Bool :=
  (h == hashSHA256) || (h == hashSHA384) || (h == hashSHA512)

/-- Modelled from the spec: the opaque external hash primitive.  Both
signing and verification apply the same function, which is all the
repository relies on. -/
def modelHash (h : Nat) (digest : List Nat) : List Nat := h :: digest

/-! ## Signer and Verifier (Go `signer.go`, `verifier.go`) -/

/-- `Signer`: headers, private key and resolved algorithm. -/
structure MSigner where
  Headers : HeadersM
  privateKey : MPrivKey
  alg : MAlg

/-- `Verifier`: public key and resolved algorithm. -/
structure MVerifier where
  publicKey : MPubKey
  alg : MAlg

/-- `NewSigner`: validate the algorithm/key pair.  (The Go nil-key check
is unrepresentable: model keys are never nil.) -/
def NewSignerM (alg : String) (key : MPrivKey) : Except MError MSigner :=
  match getAlg alg with
  | none => .error .unsupportedAlgorithm
  | some a =>
    if a.Typ = .unsupported then .error .unsupportedAlgorithm
    else
      match key with
      | .rsa k =>
        if a.Typ ≠ .keyRSA then .error .algorithmNotMatchKey
        else if a.MinKeySize > 0 ∧ a.MinKeySize > rsaSize k.pub.modulus * 8 then
          .error (.minKeySize a.MinKeySize)
        else .ok ⟨NewHeadersM, .rsa k, a⟩
      | .ec k =>
        if a.Typ ≠ .keyECDSA then .error .algorithmNotMatchKey
        else if a.CurveBits ≠ k.pub.curveBits then .error .invalidEllipticCurve
        else .ok ⟨NewHeadersM, .ec k, a⟩
      | .ed25519 k =>
        if a.Typ ≠ .keyED25519 then .error .algorithmNotMatchKey
        else .ok ⟨NewHeadersM, .ed25519 k, a⟩

/-- `NewVerifier`: the same validation on a public key. -/
def NewVerifierM (alg : String) (key : MPubKey) : Except MError MVerifier :=
  match getAlg alg with
  | none => .error .unsupportedAlgorithm
  | some a =>
    if a.Typ = .unsupported then .error .unsupportedAlgorithm
    else
      match key with
      | .rsa k =>
        if a.Typ ≠ .keyRSA then .error .algorithmNotMatchKey
        else if a.MinKeySize > 0 ∧ a.MinKeySize > rsaSize k.modulus * 8 then
          .error (.minKeySize a.MinKeySize)
        else .ok ⟨.rsa k, a⟩
      | .ec k =>
        if a.Typ ≠ .keyECDSA then .error .algorithmNotMatchKey
        else if a.CurveBits ≠ k.curveBits then .error .invalidEllipticCurve
        else .ok ⟨.ec k, a⟩
      | .ed25519 k =>
        if a.Typ ≠ .keyED25519 then .error .algorithmNotMatchKey
        else .ok ⟨.ed25519 k, a⟩

/-- `Signer.GetHash`. -/
def MSigner.GetHashM (s : MSigner) : Nat := s.alg.Hash

/-- `Verifier.GetHash`. -/
def MVerifier.GetHashM (v : MVerifier) : Nat := v.alg.Hash

/-- `Signer.GetHeaders`: the signer's headers merged with a protected
algorithm header carrying the algorithm's numeric value. -/
def MSigner.GetHeadersM (s : MSigner) : Except MError HeadersM := do
  let h ← SetProtectedM NewHeadersM (.txt HeaderAlgorithm) (.int s.alg.Value)
  .ok (MergeHeadersM s.Headers h)

/-- `Signer.ToVerifier`: build the verifier for the signer's public key. -/
def MSigner.ToVerifierM (s : MSigner) : Except MError MVerifier :=
  match s.privateKey with
  | .rsa k => NewVerifierM s.alg.Name (.rsa k.pub)
  | .ec k => NewVerifierM s.alg.Name (.ec k.pub)
  | .ed25519 k => NewVerifierM s.alg.Name (.ed25519 k.pub)

/-- `Signer.Sign`: optional pre-hash, then dispatch on the key family.
The ECDSA arm checks that `r`, `s` and the scalar `D` have machine-word
counts within 1 of each other (`len(big.Int.Bits())`), then emits the
two fixed-width big-endian halves. -/
def MSigner.SignM (s : MSigner) (digest : List Nat) : Except MError (List Nat) :=
  let hash := s.GetHashM
  if hash > 0 ∧ ¬hashAvailable hash then .error .unavailableHashAlgorithm
  else
    let digest := if hash > 0 then modelHash hash digest else digest
    match s.privateKey with
    | .rsa key => .ok (key.signO digest)
    | .ec key =>
      let rs := key.signO digest
      let sBits := goWordLen rs.2
      let rBits := goWordLen rs.1
      let dBits := goWordLen key.d
      if ¬(approxEqual sBits rBits ∧ approxEqual sBits dBits ∧
          approxEqual rBits dBits) then
        .error (.approxMismatch sBits rBits dBits)
      else
        let n := curveByteSize key.pub.curveBits
        match i2osp rs.1 n, i2osp rs.2 n with
        | some br, some bs => .ok (br ++ bs)
        | _, _ => .error .panicI2OSP
    | .ed25519 key => .ok (key.signO digest)

/-- `Verifier.Verify`: optional pre-hash, then dispatch; ECDSA demands
a signature of exactly twice the curve byte size and splits it into
`r`/`s`; any cryptographic mismatch is `ErrVerification`. -/
def MVerifier.Verify (v : MVerifier) (digest sig : List Nat) : Option MError :=
  let hash := v.GetHashM
  if hash > 0 ∧ ¬hashAvailable hash then some .unavailableHashAlgorithm
  else
    let digest := if hash > 0 then modelHash hash digest else digest
    match v.publicKey with
    | .rsa key => if key.verifyO digest sig then none else some .verification
    | .ec key =>
      let keySize := curveByteSize v.alg.CurveBits
      if sig.length ≠ keySize * 2 then some .verification
      else
        let r := fromBytesBE (sig.take keySize)
        let s := fromBytesBE (sig.drop keySize)
        if key.verifyO digest r s then none else some .verification
    | .ed25519 key => if key.verifyO digest sig then none else some .verification

/-! ## Encoding engine (Go `encoding.go`) -/

/-- `Config`: the verifier resolver plus whether the `Verified`
callback is set (a Go nil-able function pointer). -/
structure MConfig where
  getVerifiers : HeadersM → Except MError (List MVerifier)
  verifiedSet : Bool

/-- Observable outcome of `verifySignature`: the returned error, how
many `Verify` calls were made, and which verifiers were reported via
the `Verified` callback. -/
structure VerifyOutcome where
  err : Option MError
  attempts : Nat
  verifiedCalls : List MVerifier

/-- The verifier loop inside `verifySignature`: try each verifier in
order; on the first success fire the callback and stop; if all fail the
last error is kept. -/
def verifyLoop (digest sig : List Nat) (cbSet : Bool) :
    List MVerifier → VerifyOutcome
  | [] => ⟨none, 0, []⟩
  | v :: rest =>
    match v.Verify digest sig with
    | none => ⟨none, 1, if cbSet then [v] else []⟩
    | some e =>
      match rest with
      | [] => ⟨some e, 1, []⟩
      | _ :: _ =>
        let o := verifyLoop digest sig cbSet rest
        ⟨o.err, o.attempts + 1, o.verifiedCalls⟩

/-- `verifySignature`: resolve verifiers through the config (a nil
config yields none), fail with `ErrVerification` when there are no
candidates, otherwise run the loop. -/
def verifySignatureM (config : Option MConfig) (headers : HeadersM)
    (digest signature : List Nat) : VerifyOutcome :=
  match config with
  | none => ⟨some .verification, 0, []⟩
  | some cfg =>
    match cfg.getVerifiers headers with
    | .error e => ⟨some e, 0, []⟩
    | .ok verifiers =>
      if verifiers.isEmpty then ⟨some .verification, 0, []⟩
      else verifyLoop digest signature cfg.verifiedSet verifiers

/-! ## Wire structures and messages
(Go `sign1_message.go`, `sign_message.go`, `message.go`) -/

/-- Wire struct `sign1Message` (CBOR array of four fields). -/
structure Sign1S where
  Protected : List Nat
  Unprotected : HMap
  Payload : List Nat
  Signature : List Nat

/-- Wire struct `signMessageSignature`. -/
structure SignSigS where
  Protected : List Nat
  Unprotected : HMap
  Signature : List Nat

/-- Wire struct `signMessage`. -/
structure SignS where
  Protected : List Nat
  Unprotected : HMap
  Payload : List Nat
  Signatures : List SignSigS

/-- CBOR value of a `sign1Message` (the `toarray` struct encoding). -/
def sign1StructToCV (c : Sign1S) : CVal :=
  .arr [.bts c.Protected, .mp c.Unprotected, .bts c.Payload, .bts c.Signature]

/-- CBOR value of a `signMessageSignature`. -/
def signSigStructToCV (s : SignSigS) : CVal :=
  .arr [.bts s.Protected, .mp s.Unprotected, .bts s.Signature]

/-- CBOR value of a `signMessage`. -/
def signStructToCV (c : SignS) : CVal :=
  .arr [.bts c.Protected, .mp c.Unprotected, .bts c.Payload,
    .arr (c.Signatures.map signSigStructToCV)]

/-- Decode a CBOR value into a `sign1Message` struct. -/
def cvToSign1Struct : CVal → Except MError Sign1S
  | .arr [.bts p, .mp u, .bts pay, .bts sig] => .ok ⟨p, u, pay, sig⟩
  | _ => .error .codecError

/-- Decode a CBOR value into a `signMessageSignature` struct. -/
def cvToSignSig : CVal → Except MError SignSigS
  | .arr [.bts p, .mp u, .bts sig] => .ok ⟨p, u, sig⟩
  | _ => .error .codecError

/-- Decode a list of CBOR values into signature structs. -/
def cvToSignSigs : List CVal → Except MError (List SignSigS)
  | [] => .ok []
  | v :: vs => do
    let s ← cvToSignSig v
    let rest ← cvToSignSigs vs
    .ok (s :: rest)

/-- Decode a CBOR value into a `signMessage` struct. -/
def cvToSignStruct : CVal → Except MError SignS
  | .arr [.bts p, .mp u, .bts pay, .arr sigs] => do
    let ss ← cvToSignSigs sigs
    .ok ⟨p, u, pay, ss⟩
  | _ => .error .codecError

/-- `Sign1Message`: headers, optional signer, payload. -/
structure Sign1MessageM where
  Headers : HeadersM
  signer : Option MSigner
  content : List Nat

/-- `SignMessage`: headers, signer list (wire order), payload. -/
structure SignMessageM where
  Headers : HeadersM
  signers : List MSigner
  content : List Nat

/-- `Message`: the two implemented message shapes. -/
inductive MMessage where
  | sign1 (m : Sign1MessageM)
  | sign (m : SignMessageM)

/-- `Message.GetContent`. -/
def MMessage.GetContent : MMessage → List Nat
  | .sign1 m => m.content
  | .sign m => m.content

/-- `Message.GetMessageTag`. -/
def MMessage.GetMessageTagM : MMessage → Nat
  | .sign1 _ => 18
  | .sign _ => 98

/-- `NewSignMessage`. -/
def NewSignMessageM : SignMessageM := ⟨NewHeadersM, [], []⟩

/-- `SignMessage.AddSigner`: appends a signer; a nil signer is ignored. -/
def AddSignerM (m : SignMessageM) (signer : Option MSigner) : SignMessageM :=
  match signer with
  | none => m
  | some s => { m with signers := m.signers ++ [s] }

/-- The `Signature1` to-be-signed array of `sign1Message.GetDigest`. -/
def sign1DigestRaw (prot external payload : List Nat) : List Nat :=
  cborMarshal (.arr [.txt "Signature1", .bts prot, .bts external, .bts payload])

/-- `sign1Message.GetDigest`. -/
def sign1GetDigest (c : Sign1S) (external : List Nat) : List Nat :=
  sign1DigestRaw c.Protected external c.Payload

/-- The `Signature` to-be-signed array of `signMessage.GetDigest`. -/
def signDigestRaw (mprot sprot external payload : List Nat) : List Nat :=
  cborMarshal
    (.arr [.txt "Signature", .bts mprot, .bts sprot, .bts external, .bts payload])

/-- `signMessage.GetDigest`. -/
def signGetDigest (c : SignS) (sprot external : List Nat) : List Nat :=
  signDigestRaw c.Protected sprot external c.Payload

/-- `Sign1Message.sign`: merge message and signer headers, marshal the
protected map, build the to-be-signed array, sign it, and assemble the
wire struct.  A nil signer would be a nil-pointer panic in Go. -/
def sign1SignM (m : Sign1MessageM) (external : List Nat) : Except MError Sign1S :=
  match m.signer with
  | none => .error .nilPointer
  | some signer => do
    let sheaders ← signer.GetHeadersM
    let h := MergeHeadersM m.Headers sheaders
    let ph := cborMarshal (.mp h.protectedH)
    let digest := sign1DigestRaw ph external m.content
    let sig ← signer.SignM digest
    .ok ⟨ph, h.unprotectedH, m.content, sig⟩

/-- The per-signer loop of `SignMessage.sign`. -/
def signCollect (mprot payload external : List Nat) :
    List MSigner → Except MError (List SignSigS)
  | [] => .ok []
  | signer :: rest => do
    let sheaders ← signer.GetHeadersM
    let phI := cborMarshal (.mp sheaders.protectedH)
    let digest := signDigestRaw mprot phI external payload
    let sig ← signer.SignM digest
    let tail ← signCollect mprot payload external rest
    .ok (⟨phI, sheaders.unprotectedH, sig⟩ :: tail)

/-- `SignMessage.sign`. -/
def signSignM (m : SignMessageM) (external : List Nat) : Except MError SignS := do
  let ph := cborMarshal (.mp m.Headers.protectedH)
  let sigs ← signCollect ph m.content external m.signers
  .ok ⟨ph, m.Headers.unprotectedH, m.content, sigs⟩

/-- `Encoding.EncodeWithExternal`: sign, then marshal under the message
tag (18 for `Sign1Message`, 98 for `SignMessage`). -/
def EncodeWithExternalM (message : MMessage) (external : List Nat) :
    Except MError (List Nat) :=
  match message with
  | .sign1 m => do
    let sm ← sign1SignM m external
    .ok (cborMarshal (.tag 18 (sign1StructToCV sm)))
  | .sign m => do
    let sm ← signSignM m external
    .ok (cborMarshal (.tag 98 (signStructToCV sm)))

/-- `Encoding.Encode`. -/
def EncodeM (message : MMessage) : Except MError (List Nat) :=
  EncodeWithExternalM message []

/-- Fold `Headers.Set` over decoded unprotected entries. -/
def setAllUnprotected : HeadersM → HMap → Except MError HeadersM
  | h, [] => .ok h
  | h, (k, v) :: rest => do
    let h' ← SetM h k v
    setAllUnprotected h' rest

/-- Fold `Headers.SetProtected` over decoded protected entries. -/
def setAllProtected : HeadersM → HMap → Except MError HeadersM
  | h, [] => .ok h
  | h, (k, v) :: rest => do
    let h' ← SetProtectedM h k v
    setAllProtected h' rest

/-- Modelled from the spec: `newHeaders` is referenced by the decoding
paths but its body is absent from the sources; per spec §4.4 decoding
reconstructs `Headers` from the parsed protected byte string and the
unprotected map, applying the store's `Set`/`SetProtected`
normalisation (as the earlier inline version of `newSign1Message`
does): set the unprotected entries, then unmarshal the protected bytes
(which must be a map) and set those entries as protected. -/
def newHeadersM (protBytes : List Nat) (unprot : HMap) : Except MError HeadersM := do
  let h ← setAllUnprotected NewHeadersM unprot
  match cborUnmarshal protBytes with
  | .error e => .error e
  | .ok (.mp pm) => setAllProtected h pm
  | .ok _ => .error .codecError

/-- `newSign1Message`: rebuild headers, expose the payload. -/
def newSign1MessageM (c : Sign1S) : Except MError Sign1MessageM := do
  let h ← newHeadersM c.Protected c.Unprotected
  .ok ⟨h, none, c.Payload⟩

/-- `newSignMessage`: rebuild headers, expose the payload. -/
def newSignMessageM (c : SignS) : Except MError SignMessageM := do
  let h ← newHeadersM c.Protected c.Unprotected
  .ok ⟨h, [], c.Payload⟩

/-- The tag-18 branch of `DecodeWithExternal`. -/
def decodeSign1Body (content : CVal) (external : List Nat)
    (config : Option MConfig) : Option MMessage × Option MError :=
  match cvToSign1Struct content with
  | .error e => (none, some e)
  | .ok c =>
    match newSign1MessageM c with
    | .error e => (none, some e)
    | .ok msg =>
      let digest := sign1GetDigest c external
      (some (.sign1 msg), (verifySignatureM config msg.Headers digest c.Signature).err)

/-- One iteration of the tag-98 verification loop: recompute the
digest, rebuild the signature's headers, then verify against the merged
headers; `none` means this signature passed. -/
def sigEntryErr (config : Option MConfig) (msgHeaders : HeadersM) (c : SignS)
    (external : List Nat) (sig : SignSigS) : Option MError :=
  let digest := signGetDigest c sig.Protected external
  match newHeadersM sig.Protected sig.Unprotected with
  | .error e => some e
  | .ok sheaders =>
    (verifySignatureM config (MergeHeadersM msgHeaders sheaders) digest
      sig.Signature).err

/-- The tag-98 loop over the signatures in wire order, stopping at the
first failure. -/
def decodeSignLoop (config : Option MConfig) (msgHeaders : HeadersM) (c : SignS)
    (external : List Nat) : List SignSigS → Option MError
  | [] => none
  | sig :: rest =>
    match sigEntryErr config msgHeaders c external sig with
    | some e => some e
    | none => decodeSignLoop config msgHeaders c external rest

/-- The tag-98 branch of `DecodeWithExternal`: on a verification
failure the parsed message is returned together with the error. -/
def decodeSignBody (content : CVal) (external : List Nat)
    (config : Option MConfig) : Option MMessage × Option MError :=
  match cvToSignStruct content with
  | .error e => (none, some e)
  | .ok c =>
    match newSignMessageM c with
    | .error e => (none, some e)
    | .ok msg =>
      match decodeSignLoop config msg.Headers c external c.Signatures with
      | some e => (some (.sign msg), some e)
      | none => (some (.sign msg), none)

/-- `Encoding.DecodeWithExternal`: unmarshal the outer raw tag and
dispatch on the tag number (18 `Sign1`, 98 `Sign`, otherwise
`ErrUnsupportedMessageTag`).  The Go function returns a
`(Message, error)` pair; both components are modelled. -/
def DecodeWithExternalM (data external : List Nat) (config : Option MConfig) :
    Option MMessage × Option MError :=
  match cborUnmarshal data with
  | .error e => (none, some e)
  | .ok (.tag 18 content) => decodeSign1Body content external config
  | .ok (.tag 98 content) => decodeSignBody content external config
  | .ok (.tag n _) => (none, some (.unsupportedMessageTag n))
  | .ok _ => (none, some .codecError)

/-- `Encoding.Decode`. -/
def DecodeM (data : List Nat) (config : Option MConfig) :
    Option MMessage × Option MError :=
  DecodeWithExternalM data [] config

/-! ## Claim theorems -/

/-- C10: calling `AddSigner` with a nil signer on a multi-signer message
is a no-op: the message (in particular its signer list) is unchanged,
and so is the set of signatures later produced by `sign`. -/
theorem claim_C10_addSigner_nil_noop :
    ∀ (m : SignMessageM) (external : List Nat),
      AddSignerM m none = m ∧
      signSignM (AddSignerM m none) external = signSignM m external :=
  fun _ _ => ⟨rfl, rfl⟩

/-- C7: calling the unprotected setter `Set` with the algorithm label
(`"alg"` / 1) or the critical label (`"crit"` / 2) succeeds, stores the
value only under the protected map (at the normalised integer label),
and leaves the unprotected map without any new entry. -/
theorem claim_C7_forced_protected_labels :
    ∀ (h : HeadersM) (v : CVal),
      (∃ h1, SetM h (.txt HeaderAlgorithm) v = .ok h1 ∧
        h1.unprotectedH = h.unprotectedH ∧
        mapHasKey h1.protectedH (.int 1) = true) ∧
      (∃ h2, SetM h (.txt HeaderCritical) v = .ok h2 ∧
        h2.unprotectedH = h.unprotectedH ∧
        mapHasKey h2.protectedH (.int 2) = true) ∧
      (∃ h3, SetM h (.int 1) v = .ok h3 ∧
        h3.unprotectedH = h.unprotectedH ∧
        mapHasKey h3.protectedH (.int 1) = true) ∧
      (∃ h4, SetM h (.int 2) v = .ok h4 ∧
        h4.unprotectedH = h.unprotectedH ∧
        mapHasKey h4.protectedH (.int 2) = true) := by
  intro h v
  refine ⟨⟨setProtInt h 1 v, ?_, ?_, ?_⟩, ⟨setProtInt h 2 v, ?_, ?_, ?_⟩,
    ⟨setProtInt h 1 v, ?_, ?_, ?_⟩, ⟨setProtInt h 2 v, ?_, ?_, ?_⟩⟩
  · simp [SetM, getCommonHeader, HeaderAlgorithm, setIntM]
  · simp [setProtInt]
  · simp [setProtInt, mapHasKey_mapSet]
  · simp [SetM, getCommonHeader, HeaderCritical, HeaderAlgorithm, setIntM]
  · simp [setProtInt]
  · simp [setProtInt, mapHasKey_mapSet]
  · simp [SetM, setIntM]
  · simp [setProtInt]
  · simp [setProtInt, mapHasKey_mapSet]
  · simp [SetM, setIntM]
  · simp [setProtInt]
  · simp [setProtInt, mapHasKey_mapSet]

theorem hasKey_MergeM_prot (h o : HeadersM) (k : CVal) :
    mapHasKey (MergeM h o).protectedH k
      = (mapHasKey h.protectedH k || mapHasKey o.protectedH k) := by
  simp only [MergeM]
  rw [hasKey_foldl_set]

theorem hasKey_MergeM_unprot (h o : HeadersM) (k : CVal) :
    mapHasKey (MergeM h o).unprotectedH k
      = (mapHasKey h.unprotectedH k ||
         (mapHasKey o.unprotectedH k &&
          !(mapHasKey h.protectedH k || mapHasKey o.protectedH k))) := by
  simp only [MergeM]
  rw [hasKey_foldl_setSkip, hasKey_foldl_set]

/-- C2 counterexample: with `a` carrying label 3 unprotected and `b`
carrying label 3 protected, `MergeHeaders a b` ends with label 3 in
BOTH maps, so the claimed invariant fails in exactly the highlighted
case (label from `a`'s unprotected and `b`'s protected map). -/
theorem claim_C2_counterexample :
    mapHasKey (MergeHeadersM ⟨[], [(.int 3, .int 5)]⟩
      ⟨[(.int 3, .int 7)], []⟩).protectedH (.int 3) = true ∧
    mapHasKey (MergeHeadersM ⟨[], [(.int 3, .int 5)]⟩
      ⟨[(.int 3, .int 7)], []⟩).unprotectedH (.int 3) = true := by
  constructor <;> rfl

/-- C2 amended: after `MergeHeaders a b` a label is present in both the
protected and the unprotected map exactly when it comes from `a`'s
unprotected map (while absent from `a`'s protected map) and from `b`'s
protected map; in every other configuration the protected entry wins
and the unprotected duplicate is dropped. -/
theorem claim_C2_merge_duplicate_characterisation :
    ∀ (a b : HeadersM) (k : CVal),
      (mapHasKey (MergeHeadersM a b).protectedH k = true ∧
        mapHasKey (MergeHeadersM a b).unprotectedH k = true) ↔
      (mapHasKey a.unprotectedH k = true ∧
        mapHasKey a.protectedH k = false ∧
        mapHasKey b.protectedH k = true) := by
  intro a b k
  unfold MergeHeadersM
  simp only [hasKey_MergeM_prot, hasKey_MergeM_unprot]
  have hnilp : mapHasKey NewHeadersM.protectedH k = false := rfl
  have hnilu : mapHasKey NewHeadersM.unprotectedH k = false := rfl
  rw [hnilp, hnilu]
  cases h1 : mapHasKey a.protectedH k <;>
    cases h2 : mapHasKey a.unprotectedH k <;>
    cases h3 : mapHasKey b.protectedH k <;>
    cases h4 : mapHasKey b.unprotectedH k <;> simp_all

/-- C9: decoding well-formed CBOR data whose outer tag is neither 18
nor 98 fails with `ErrUnsupportedMessageTag` carrying that tag, and no
message is returned. -/
theorem claim_C9_unknown_tag (data external : List Nat) (config : Option MConfig)
    (n : Nat) (v : CVal)
    (hparse : cborUnmarshal data = .ok (.tag n v))
    (h18 : n ≠ 18) (h98 : n ≠ 98) :
    DecodeWithExternalM data external config
      = (none, some (.unsupportedMessageTag n)) := by
  unfold DecodeWithExternalM
  rw [hparse]
  split
  all_goals try simp_all
  rename_i hnot heq
  exact absurd heq.symm (hnot n v)

/-- C9 witness: a tag-17 value decodes to `UnsupportedMessageTag 17`. -/
theorem claim_C9_witness :
    DecodeWithExternalM (cborMarshal (.tag 17 (.int 0))) [] none
      = (none, some (.unsupportedMessageTag 17)) :=
  claim_C9_unknown_tag _ _ _ 17 (.int 0) (by rfl) (by decide) (by decide)

theorem verifyLoop_success (digest sig : List Nat) (cbSet : Bool)
    (vs : List MVerifier) (i : Nat) (hi : i < vs.length)
    (hfail : ∀ j, (hj : j < i) → (vs.get ⟨j, by omega⟩).Verify digest sig ≠ none)
    (hok : (vs.get ⟨i, hi⟩).Verify digest sig = none) :
    verifyLoop digest sig cbSet vs
      = ⟨none, i + 1, if cbSet then [vs.get ⟨i, hi⟩] else []⟩ := by
  induction vs generalizing i with
  | nil => simp at hi
  | cons v rest ih =>
    cases i with
    | zero =>
      simp only [List.get] at hok
      unfold verifyLoop
      rw [hok]
      rfl
    | succ i' =>
      have h0 : v.Verify digest sig ≠ none := hfail 0 (by omega)
      obtain ⟨e, he⟩ : ∃ e, v.Verify digest sig = some e := by
        cases hv : v.Verify digest sig with
        | none => exact absurd hv h0
        | some e => exact ⟨e, rfl⟩
      have hi' : i' < rest.length := by simpa using hi
      cases rest with
      | nil => simp at hi'
      | cons r rs =>
        have hstep := ih i' hi'
          (fun j hj => by
            have := hfail (j + 1) (by omega)
            simpa using this)
          (by simpa using hok)
        unfold verifyLoop
        rw [he]
        simp only [hstep]
        rfl

/-- C5: during decode-time signature verification, a resolver error is
returned unchanged with no verification attempted; zero resolved
verifiers yield `ErrVerification` with no verification attempted; and
otherwise the verifiers are tried in order until the first success, at
which point the `Verified` callback (when set) is invoked with that
verifier and the search stops. -/
theorem claim_C5_verifier_resolution (cfg : MConfig) (headers : HeadersM)
    (digest signature : List Nat) :
    (∀ e, cfg.getVerifiers headers = .error e →
      verifySignatureM (some cfg) headers digest signature = ⟨some e, 0, []⟩) ∧
    (cfg.getVerifiers headers = .ok [] →
      verifySignatureM (some cfg) headers digest signature
        = ⟨some .verification, 0, []⟩) ∧
    (∀ vs i, cfg.getVerifiers headers = .ok vs → (hi : i < vs.length) →
      (∀ j, (hj : j < i) → (vs.get ⟨j, by omega⟩).Verify digest signature ≠ none) →
      (vs.get ⟨i, hi⟩).Verify digest signature = none →
      verifySignatureM (some cfg) headers digest signature
        = ⟨none, i + 1, if cfg.verifiedSet then [vs.get ⟨i, hi⟩] else []⟩) := by
  refine ⟨fun e he => ?_, fun he => ?_, fun vs i hvs hi hfail hok => ?_⟩
  · simp [verifySignatureM, he]
  · simp [verifySignatureM, he]
  · have hne : vs.isEmpty = false := by
      cases vs with
      | nil => simp at hi
      | cons a l => rfl
    simp only [verifySignatureM, hvs, hne, Bool.false_eq_true, if_neg,
      not_false_iff]
    exact verifyLoop_success digest signature cfg.verifiedSet vs i hi hfail hok

/-- C5 witness: a two-verifier resolver where the first fails and the
second succeeds gives no error, two attempts, and reports the second
verifier through the callback. -/
theorem claim_C5_witness :
    verifySignatureM
      (some ⟨fun _ => .ok
        [⟨.ed25519 ⟨fun _ _ => false⟩, ⟨"EdDSA", -8, 0, .keyED25519, 0, 0⟩⟩,
         ⟨.ed25519 ⟨fun _ _ => true⟩, ⟨"EdDSA", -8, 0, .keyED25519, 0, 0⟩⟩],
        true⟩)
      NewHeadersM [3] [4]
      = ⟨none, 2,
        [⟨.ed25519 ⟨fun _ _ => true⟩, ⟨"EdDSA", -8, 0, .keyED25519, 0, 0⟩⟩]⟩ := by
  have h := (claim_C5_verifier_resolution
    ⟨fun _ => .ok
      [⟨.ed25519 ⟨fun _ _ => false⟩, ⟨"EdDSA", -8, 0, .keyED25519, 0, 0⟩⟩,
       ⟨.ed25519 ⟨fun _ _ => true⟩, ⟨"EdDSA", -8, 0, .keyED25519, 0, 0⟩⟩],
      true⟩
    NewHeadersM [3] [4]).2.2
    [⟨.ed25519 ⟨fun _ _ => false⟩, ⟨"EdDSA", -8, 0, .keyED25519, 0, 0⟩⟩,
     ⟨.ed25519 ⟨fun _ _ => true⟩, ⟨"EdDSA", -8, 0, .keyED25519, 0, 0⟩⟩]
    1 rfl (by simp)
    (fun j hj => by
      interval_cases j
      simp [MVerifier.Verify, MVerifier.GetHashM])
    (by simp [MVerifier.Verify, MVerifier.GetHashM])
  simpa using h

theorem i2osp_shape (b n : Nat) (res : List Nat) (h : i2osp b n = some res) :
    res = List.replicate (n - (bytesBE b).length) 0 ++ bytesBE b := by
  unfold i2osp at h
  by_cases hc : n = 0 ∨ (bytesBE b).length > n
  · simp [hc] at h
  · simp only [hc, if_neg, not_false_iff, Option.some.injEq] at h
    exact h.symm

theorem newSigner_ec_inv (algName : String) (a : MAlg) (k : MEcPriv) (s : MSigner)
    (hga : getAlg algName = some a) (hTyp : a.Typ = .keyECDSA)
    (hs : NewSignerM algName (.ec k) = .ok s) :
    s = ⟨NewHeadersM, .ec k, a⟩ ∧ a.CurveBits = k.pub.curveBits := by
  unfold NewSignerM at hs
  rw [hga] at hs
  dsimp only at hs
  rw [if_neg (by simp [hTyp])] at hs
  rw [if_neg (by simp [hTyp])] at hs
  by_cases hcb : a.CurveBits ≠ k.pub.curveBits
  · rw [if_pos hcb] at hs
    cases hs
  · rw [if_neg hcb] at hs
    exact ⟨(Except.ok.inj hs).symm, not_ne_iff.mp hcb⟩

theorem signM_ec_ok_shape (s : MSigner) (k : MEcPriv) (digest sig : List Nat)
    (hk : s.privateKey = .ec k)
    (hav : hashAvailable s.alg.Hash = true) (hpos : s.alg.Hash > 0)
    (hcb : s.alg.CurveBits = k.pub.curveBits)
    (hsig : s.SignM digest = .ok sig) :
    ∃ br bs,
      i2osp (k.signO (modelHash s.alg.Hash digest)).1
        (curveByteSize s.alg.CurveBits) = some br ∧
      i2osp (k.signO (modelHash s.alg.Hash digest)).2
        (curveByteSize s.alg.CurveBits) = some bs ∧
      sig = br ++ bs := by
  unfold MSigner.SignM MSigner.GetHashM at hsig
  rw [hk] at hsig
  rw [if_neg (by simp [hav])] at hsig
  rw [if_pos hpos] at hsig
  dsimp only at hsig
  rw [hcb]
  by_cases hap : ¬(approxEqual (goWordLen (k.signO (modelHash s.alg.Hash digest)).2)
        (goWordLen (k.signO (modelHash s.alg.Hash digest)).1) = true ∧
      approxEqual (goWordLen (k.signO (modelHash s.alg.Hash digest)).2)
        (goWordLen k.d) = true ∧
      approxEqual (goWordLen (k.signO (modelHash s.alg.Hash digest)).1)
        (goWordLen k.d) = true)
  · rw [if_pos hap] at hsig
    cases hsig
  · rw [if_neg hap] at hsig
    cases hbr : i2osp (k.signO (modelHash s.alg.Hash digest)).1
        (curveByteSize k.pub.curveBits) with
    | none =>
      rw [hbr] at hsig
      cases hbs : i2osp (k.signO (modelHash s.alg.Hash digest)).2
          (curveByteSize k.pub.curveBits) with
      | none => rw [hbs] at hsig; cases hsig
      | some bs => rw [hbs] at hsig; cases hsig
    | some br =>
      rw [hbr] at hsig
      cases hbs : i2osp (k.signO (modelHash s.alg.Hash digest)).2
          (curveByteSize k.pub.curveBits) with
      | none => rw [hbs] at hsig; cases hsig
      | some bs =>
        rw [hbs] at hsig
        exact ⟨br, bs, rfl, rfl, (Except.ok.inj hsig).symm⟩

theorem c3_conclusion (n r sv : Nat) (br bs : List Nat)
    (hbr : i2osp r n = some br) (hbs : i2osp sv n = some bs) :
    (br ++ bs).length = 2 * n ∧
    (br ++ bs).take n = List.replicate (n - (bytesBE r).length) 0 ++ bytesBE r ∧
    (br ++ bs).drop n = List.replicate (n - (bytesBE sv).length) 0 ++ bytesBE sv ∧
    fromBytesBE ((br ++ bs).take n) = r ∧
    fromBytesBE ((br ++ bs).drop n) = sv := by
  have hlbr := i2osp_length r n br hbr
  have hlbs := i2osp_length sv n bs hbs
  have htake : (br ++ bs).take n = br := by
    rw [← hlbr]
    exact List.take_left br bs
  have hdrop : (br ++ bs).drop n = bs := by
    rw [← hlbr]
    exact List.drop_left br bs
  refine ⟨by simp [hlbr, hlbs]; omega, ?_, ?_, ?_, ?_⟩
  · rw [htake]; exact i2osp_shape r n br hbr
  · rw [hdrop]; exact i2osp_shape sv n bs hbs
  · rw [htake]; exact fromBytesBE_i2osp r n br hbr
  · rw [hdrop]; exact fromBytesBE_i2osp sv n bs hbs

/-- C3: a successful ECDSA `Signer.Sign` (ES256/ES384/ES512) returns a
signature of byte length exactly twice the curve byte size
`ceil(bitSize/8)`, whose two halves are the fixed-width big-endian
left-zero-padded encodings of `r` and `s`, whatever their magnitude. -/
theorem claim_C3_ecdsa_fixed_width (algName : String) (k : MEcPriv) (s : MSigner)
    (halg : algName = "ES256" ∨ algName = "ES384" ∨ algName = "ES512")
    (hs : NewSignerM algName (.ec k) = .ok s)
    (digest sig : List Nat)
    (hsig : s.SignM digest = .ok sig) :
    sig.length = 2 * curveByteSize s.alg.CurveBits ∧
    sig.take (curveByteSize s.alg.CurveBits)
      = List.replicate (curveByteSize s.alg.CurveBits
          - (bytesBE (k.signO (modelHash s.alg.Hash digest)).1).length) 0
        ++ bytesBE (k.signO (modelHash s.alg.Hash digest)).1 ∧
    sig.drop (curveByteSize s.alg.CurveBits)
      = List.replicate (curveByteSize s.alg.CurveBits
          - (bytesBE (k.signO (modelHash s.alg.Hash digest)).2).length) 0
        ++ bytesBE (k.signO (modelHash s.alg.Hash digest)).2 ∧
    fromBytesBE (sig.take (curveByteSize s.alg.CurveBits))
      = (k.signO (modelHash s.alg.Hash digest)).1 ∧
    fromBytesBE (sig.drop (curveByteSize s.alg.CurveBits))
      = (k.signO (modelHash s.alg.Hash digest)).2 := by
  rcases halg with rfl | rfl | rfl
  · obtain ⟨rfl, hcb⟩ :=
      newSigner_ec_inv ("ES256") ⟨"ES256", -7, 5, .keyECDSA, 0, 256⟩ k s rfl rfl hs
    obtain ⟨br, bs, hbr, hbs, rfl⟩ :=
      signM_ec_ok_shape ⟨NewHeadersM, .ec k, ⟨"ES256", -7, 5, .keyECDSA, 0, 256⟩⟩ k digest sig rfl rfl
        (by dsimp only; decide) hcb hsig
    exact c3_conclusion _ _ _ br bs hbr hbs
  · obtain ⟨rfl, hcb⟩ :=
      newSigner_ec_inv ("ES384") ⟨"ES384", -35, 6, .keyECDSA, 0, 384⟩ k s rfl rfl hs
    obtain ⟨br, bs, hbr, hbs, rfl⟩ :=
      signM_ec_ok_shape ⟨NewHeadersM, .ec k, ⟨"ES384", -35, 6, .keyECDSA, 0, 384⟩⟩ k digest sig rfl rfl
        (by dsimp only; decide) hcb hsig
    exact c3_conclusion _ _ _ br bs hbr hbs
  · obtain ⟨rfl, hcb⟩ :=
      newSigner_ec_inv ("ES512") ⟨"ES512", -36, 7, .keyECDSA, 0, 521⟩ k s rfl rfl hs
    obtain ⟨br, bs, hbr, hbs, rfl⟩ :=
      signM_ec_ok_shape ⟨NewHeadersM, .ec k, ⟨"ES512", -36, 7, .keyECDSA, 0, 521⟩⟩ k digest sig rfl rfl
        (by dsimp only; decide) hcb hsig
    exact c3_conclusion _ _ _ br bs hbr hbs

/-- C3 witness: an ES256 signer over a concrete oracle with `r = 2`,
`s = 3` produces the 64-byte signature of two zero-padded 32-byte
halves. -/
theorem claim_C3_witness :
    (List.replicate 31 0 ++ [2] ++ (List.replicate 31 0 ++ [3])).length
      = 2 * curveByteSize 256 ∧
    fromBytesBE ((List.replicate 31 0 ++ [2]
      ++ (List.replicate 31 0 ++ [3])).take (curveByteSize 256)) = 2 := by
  have h := claim_C3_ecdsa_fixed_width ("ES256")
    ⟨⟨256, fun _ _ _ => true⟩, 3, fun _ => (2, 3)⟩
    ⟨NewHeadersM, .ec ⟨⟨256, fun _ _ _ => true⟩, 3, fun _ => (2, 3)⟩,
      ⟨"ES256", -7, 5, .keyECDSA, 0, 256⟩⟩
    (Or.inl rfl) rfl [9]
    (List.replicate 31 0 ++ [2] ++ (List.replicate 31 0 ++ [3])) (by rfl)
  exact ⟨h.1, h.2.2.2.1⟩

theorem goBitLen_two_pow (k : Nat) : goBitLen (2 ^ k) = k + 1 := by
  induction k with
  | zero => rfl
  | succ k ih =>
    rw [goBitLen_succ _ (by positivity)]
    have hdiv : 2 ^ (k + 1) / 2 = 2 ^ k := by
      rw [pow_succ]
      omega
    rw [hdiv, ih]

theorem goWordLen_two_pow (k : Nat) : goWordLen (2 ^ k) = (k + 64) / 64 := by
  unfold goWordLen
  rw [if_neg (by positivity), goBitLen_two_pow]

theorem rsaSize_two_pow (k : Nat) : rsaSize (2 ^ k) = (k + 8) / 8 := by
  unfold rsaSize
  rw [goBitLen_two_pow]

/-- C6 counterexample: `Signer.Sign` compares `len(big.Int.Bits())`
(64-bit machine-word counts), not bit lengths.  With `r = 2` (2 bits)
and `s = D = 100` (7 bits) the bit lengths differ by 5, yet all word
counts are 1, so the check passes and a signature is returned instead
of an error. -/
theorem claim_C6_counterexample :
    ((MSigner.mk NewHeadersM
      (.ec ⟨⟨256, fun _ _ _ => true⟩, 100, fun _ => (2, 100)⟩)
      ⟨"ES256", -7, 5, .keyECDSA, 0, 256⟩).SignM [0]).isOk = true ∧
    goBitLen 100 = 7 ∧ goBitLen 2 = 2 ∧
    goWordLen 100 = 1 ∧ goWordLen 2 = 1 := by
  refine ⟨?_, ?_, ?_, ?_, ?_⟩ <;> decide

/-- C6 amended: before accepting an ECDSA signature, `Signer.Sign`
checks that the 64-bit machine-word counts (`len(big.Int.Bits())`) of
`r`, `s` and the private scalar are within one word of each other, and
returns an error instead of a signature when any pair differs by more
than one word.  (Values whose bit lengths differ by far more than one
bit can therefore still be accepted.) -/
theorem claim_C6_word_count_check (s : MSigner) (k : MEcPriv)
    (digest d' : List Nat) (r sv : Nat)
    (hk : s.privateKey = .ec k)
    (hhash : s.alg.Hash = 0 ∨ hashAvailable s.alg.Hash = true)
    (hd : d' = if s.alg.Hash > 0 then modelHash s.alg.Hash digest else digest)
    (hrs : k.signO d' = (r, sv))
    (hfail : ¬(approxEqual (goWordLen sv) (goWordLen r) = true ∧
        approxEqual (goWordLen sv) (goWordLen k.d) = true ∧
        approxEqual (goWordLen r) (goWordLen k.d) = true)) :
    s.SignM digest
      = .error (.approxMismatch (goWordLen sv) (goWordLen r) (goWordLen k.d)) := by
  unfold MSigner.SignM MSigner.GetHashM
  rw [hk]
  rw [if_neg (by rcases hhash with h | h <;> simp [h])]
  rw [← hd]
  dsimp only
  rw [hrs]
  rw [if_pos (by simpa using hfail)]

/-- C6 witness: with `r = 1` (one word) and `s = 2^200` (four words)
the word counts differ by three, so `Sign` returns the mismatch error. -/
theorem claim_C6_witness :
    (MSigner.mk NewHeadersM
      (.ec ⟨⟨256, fun _ _ _ => true⟩, 1, fun _ => (1, 2 ^ 200)⟩)
      ⟨"ES256", -7, 5, .keyECDSA, 0, 256⟩).SignM [0]
      = .error (.approxMismatch (goWordLen (2 ^ 200)) (goWordLen 1)
          (goWordLen 1)) := by
  exact claim_C6_word_count_check
    (MSigner.mk NewHeadersM
      (.ec ⟨⟨256, fun _ _ _ => true⟩, 1, fun _ => (1, 2 ^ 200)⟩)
      ⟨"ES256", -7, 5, .keyECDSA, 0, 256⟩)
    ⟨⟨256, fun _ _ _ => true⟩, 1, fun _ => (1, 2 ^ 200)⟩
    [0] (modelHash 5 [0]) 1 (2 ^ 200) rfl (Or.inr rfl) rfl rfl
    (by rw [goWordLen_two_pow]; decide)

theorem c8_core (algName : String) (a : MAlg) (k : MRsaPriv) (pk : MRsaPub)
    (hga : getAlg algName = some a) (hTyp : a.Typ = .keyRSA)
    (hmin : a.MinKeySize = 2048) :
    (NewSignerM algName (.rsa k) = .error (.minKeySize 2048) ↔
      rsaSize k.pub.modulus * 8 < 2048) ∧
    (NewVerifierM algName (.rsa pk) = .error (.minKeySize 2048) ↔
      rsaSize pk.modulus * 8 < 2048) := by
  constructor
  · unfold NewSignerM
    rw [hga]
    dsimp only
    rw [if_neg (by simp [hTyp])]
    rw [if_neg (by simp [hTyp])]
    rw [hmin]
    by_cases hsz : rsaSize k.pub.modulus * 8 < 2048
    · rw [if_pos (by omega)]
      simp [hsz]
    · rw [if_neg (by omega)]
      simp [hsz]
  · unfold NewVerifierM
    rw [hga]
    dsimp only
    rw [if_neg (by simp [hTyp])]
    rw [if_neg (by simp [hTyp])]
    rw [hmin]
    by_cases hsz : rsaSize pk.modulus * 8 < 2048
    · rw [if_pos (by omega)]
      simp [hsz]
    · rw [if_neg (by omega)]
      simp [hsz]

/-- C8 counterexample: `NewSigner` compares `MinKeySize` against
`k.Size() * 8`, where `Size()` rounds the modulus up to whole bytes.
A modulus of bit length 2047 (below 2048 bits) has `Size() * 8 = 2048`,
so constructing a PS256 signer succeeds instead of failing with
`MinKeySize{2048}`. -/
theorem claim_C8_counterexample :
    (NewSignerM ("PS256")
      (.rsa ⟨⟨2 ^ 2046, fun _ _ => true⟩, fun _ => []⟩)).isOk = true ∧
    goBitLen (2 ^ 2046) = 2047 ∧ rsaSize (2 ^ 2046) * 8 = 2048 := by
  have hsz : rsaSize (2 ^ 2046) = 256 := by
    rw [rsaSize_two_pow]
  refine ⟨?_, ?_, ?_⟩
  · unfold NewSignerM
    rw [show getAlg ("PS256")
      = some ⟨"PS256", -37, 5, .keyRSA, 2048, 0⟩ from rfl]
    dsimp only
    rw [if_neg (by decide)]
    rw [if_neg (by decide)]
    rw [if_neg (by rw [hsz]; omega)]
    rfl
  · rw [goBitLen_two_pow]
  · rw [hsz]

/-- C8 amended: constructing a Signer or Verifier with algorithm
PS256/PS384/PS512 over an RSA key fails with `MinKeySize{2048}` exactly
when the modulus byte length times 8 (`k.Size() * 8`, the modulus
rounded up to whole bytes) is below 2048 — that is, when the modulus
has at most 2040 bits; moduli of 2041–2047 bits are accepted. -/
theorem claim_C8_min_key_size (algName : String) (k : MRsaPriv) (pk : MRsaPub)
    (halg : algName = "PS256" ∨ algName = "PS384" ∨ algName = "PS512") :
    (NewSignerM algName (.rsa k) = .error (.minKeySize 2048) ↔
      rsaSize k.pub.modulus * 8 < 2048) ∧
    (NewVerifierM algName (.rsa pk) = .error (.minKeySize 2048) ↔
      rsaSize pk.modulus * 8 < 2048) := by
  rcases halg with rfl | rfl | rfl
  · exact c8_core _ ⟨"PS256", -37, 5, .keyRSA, 2048, 0⟩ k pk rfl rfl rfl
  · exact c8_core _ ⟨"PS384", -38, 6, .keyRSA, 2048, 0⟩ k pk rfl rfl rfl
  · exact c8_core _ ⟨"PS512", -39, 7, .keyRSA, 2048, 0⟩ k pk rfl rfl rfl

/-- C8 witness: a 1024-bit modulus under PS256 fails with
`MinKeySize{2048}` for both the signer and the verifier constructor. -/
theorem claim_C8_witness :
    NewSignerM ("PS256") (.rsa ⟨⟨2 ^ 1023, fun _ _ => true⟩, fun _ => []⟩)
      = .error (.minKeySize 2048) ∧
    NewVerifierM ("PS256") (.rsa ⟨2 ^ 1023, fun _ _ => true⟩)
      = .error (.minKeySize 2048) := by
  have h := claim_C8_min_key_size ("PS256")
    ⟨⟨2 ^ 1023, fun _ _ => true⟩, fun _ => []⟩
    ⟨2 ^ 1023, fun _ _ => true⟩ (Or.inl rfl)
  have hsz : rsaSize (2 ^ 1023) = 128 := by
    rw [rsaSize_two_pow]
  exact ⟨h.1.mpr (by rw [hsz]; omega), h.2.mpr (by rw [hsz]; omega)⟩

theorem cvToSign1Struct_roundtrip (c : Sign1S) :
    cvToSign1Struct (sign1StructToCV c) = .ok c := rfl

theorem cvToSignSig_roundtrip (s : SignSigS) :
    cvToSignSig (signSigStructToCV s) = .ok s := rfl

theorem cvToSignSigs_roundtrip (l : List SignSigS) :
    cvToSignSigs (l.map signSigStructToCV) = .ok l := by
  induction l with
  | nil => rfl
  | cons s rest ih =>
    simp only [List.map_cons, cvToSignSigs, cvToSignSig_roundtrip, ih]
    rfl

theorem cvToSignStruct_roundtrip (c : SignS) :
    cvToSignStruct (signStructToCV c) = .ok c := by
  unfold signStructToCV cvToSignStruct
  dsimp only
  rw [cvToSignSigs_roundtrip]
  rfl

theorem decodeSignLoop_firstFail (config : Option MConfig) (msgHeaders : HeadersM)
    (c : SignS) (external : List Nat) (sigs : List SignSigS) (i : Nat) (e : MError)
    (hi : i < sigs.length)
    (hok : ∀ j, (hj : j < i) →
      sigEntryErr config msgHeaders c external (sigs.get ⟨j, by omega⟩) = none)
    (hfail : sigEntryErr config msgHeaders c external (sigs.get ⟨i, hi⟩) = some e) :
    decodeSignLoop config msgHeaders c external sigs = some e := by
  induction sigs generalizing i with
  | nil => simp at hi
  | cons sig rest ih =>
    cases i with
    | zero =>
      simp only [List.get] at hfail
      unfold decodeSignLoop
      rw [hfail]
    | succ i' =>
      have h0 : sigEntryErr config msgHeaders c external sig = none :=
        hok 0 (by omega)
      have hi' : i' < rest.length := by simpa using hi
      unfold decodeSignLoop
      rw [h0]
      exact ih i' hi'
        (fun j hj => by
          have := hok (j + 1) (by omega)
          simpa using this)
        (by simpa using hfail)

/-- C4: when a tag-98 (multi-signer) message is decoded, the signatures
are verified in wire order; the first signature whose verification step
fails aborts the decode and its error is returned, while the already
parsed message carrying the payload is still returned to the caller
alongside the error. -/
theorem claim_C4_first_failure_aborts (c : SignS) (external : List Nat)
    (config : Option MConfig) (msg : SignMessageM) (i : Nat) (e : MError)
    (hmsg : newSignMessageM c = .ok msg)
    (hi : i < c.Signatures.length)
    (hok : ∀ j, (hj : j < i) →
      sigEntryErr config msg.Headers c external (c.Signatures.get ⟨j, by omega⟩) = none)
    (hfail : sigEntryErr config msg.Headers c external (c.Signatures.get ⟨i, hi⟩)
      = some e) :
    DecodeWithExternalM (cborMarshal (.tag 98 (signStructToCV c))) external config
      = (some (.sign msg), some e) ∧
    msg.content = c.Payload := by
  have hcontent : msg.content = c.Payload := by
    unfold newSignMessageM at hmsg
    cases hnh : newHeadersM c.Protected c.Unprotected with
    | error e0 => rw [hnh] at hmsg; cases hmsg
    | ok h0 =>
      rw [hnh] at hmsg
      simp only [bind, Except.bind, pure, Except.pure] at hmsg
      cases hmsg
      rfl
  refine ⟨?_, hcontent⟩
  unfold DecodeWithExternalM
  rw [cborUnmarshal_marshal]
  dsimp only
  unfold decodeSignBody
  rw [cvToSignStruct_roundtrip]
  dsimp only
  rw [hmsg]
  dsimp only
  rw [decodeSignLoop_firstFail config msg.Headers c external c.Signatures i e
    hi hok hfail]

/-- C4 witness: a two-signature message whose resolver returns no
verifiers fails on the first signature with `ErrVerification`, while
the parsed message with payload `[7]` is returned alongside the error. -/
theorem claim_C4_witness :
    DecodeWithExternalM
      (cborMarshal (.tag 98 (signStructToCV
        ⟨cborMarshal (.mp []), [], [7],
          [⟨cborMarshal (.mp []), [], [1]⟩, ⟨cborMarshal (.mp []), [], [2]⟩]⟩)))
      [] (some ⟨fun _ => .ok [], false⟩)
      = (some (.sign ⟨⟨[], []⟩, [], [7]⟩), some .verification) ∧
    (⟨⟨[], []⟩, [], [7]⟩ : SignMessageM).content = [7] := by
  exact claim_C4_first_failure_aborts
    ⟨cborMarshal (.mp []), [], [7],
      [⟨cborMarshal (.mp []), [], [1]⟩, ⟨cborMarshal (.mp []), [], [2]⟩]⟩
    [] (some ⟨fun _ => .ok [], false⟩) ⟨⟨[], []⟩, [], [7]⟩ 0 .verification
    rfl (by decide) (fun j hj => absurd hj (by omega)) rfl

/-! ## Round-trip infrastructure for C1 -/

/-- Header labels the store accepts (Go `string` / `int` / `int64`). -/
def wfKeyB : CVal → Bool
  | .int _ => true
  | .txt _ => true
  | _ => false

/-- All keys of a header map are acceptable labels. -/
def wfMap (m : HMap) : Prop := ∀ e ∈ m, wfKeyB e.1 = true

/-- Both maps of a `Headers` carry acceptable labels. -/
def headersWF (h : HeadersM) : Prop := wfMap h.protectedH ∧ wfMap h.unprotectedH

/-- The public part of a private key (Go `key.Public()`). -/
def pubOf : MPrivKey → MPubKey
  | .rsa k => .rsa k.pub
  | .ec k => .ec k.pub
  | .ed25519 k => .ed25519 k.pub

/-- Modelled from the spec: a valid RSA key - the trusted external
`rsa.VerifyPSS` accepts what `rsa.SignPSS` produces. -/
def rsaGood (k : MRsaPriv) : Prop := ∀ d, k.pub.verifyO d (k.signO d) = true

/-- Modelled from the spec: a valid Ed25519 key. -/
def edGood (k : MEdPriv) : Prop := ∀ d, k.pub.verifyO d (k.signO d) = true

/-- Modelled from the spec: a valid ECDSA key - `ecdsa.Sign` returns
`(r, s)` in range (below the curve order, hence below `256^byteSize`)
with the usual word counts, and `ecdsa.Verify` accepts them. -/
def ecGood (k : MEcPriv) : Prop :=
  ∀ d,
    approxEqual (goWordLen (k.signO d).2) (goWordLen (k.signO d).1) = true ∧
    approxEqual (goWordLen (k.signO d).2) (goWordLen k.d) = true ∧
    approxEqual (goWordLen (k.signO d).1) (goWordLen k.d) = true ∧
    (k.signO d).1 < 256 ^ curveByteSize k.pub.curveBits ∧
    (k.signO d).2 < 256 ^ curveByteSize k.pub.curveBits ∧
    k.pub.verifyO d (k.signO d).1 (k.signO d).2 = true

/-- A valid key of any family. -/
def keyGood : MPrivKey → Prop
  | .rsa k => rsaGood k
  | .ec k => ecGood k
  | .ed25519 k => edGood k

/-- The seven supported signing algorithms. -/
def supportedAlgs : List String :=
  ["PS256", "PS384", "PS512", "ES256", "ES384", "ES512", "EdDSA"]

theorem wfMap_nil : wfMap [] := by
  intro e he
  cases he

theorem wfMap_mapSet (m : HMap) (k v : CVal) (hm : wfMap m)
    (hk : wfKeyB k = true) : wfMap (mapSet m k v) := by
  intro e he
  unfold mapSet at he
  rcases List.mem_append.mp he with h | h
  · exact hm e (List.mem_of_mem_filter h)
  · simp only [List.mem_singleton] at h
    subst h
    exact hk

theorem wfMap_foldl_set (l acc : HMap) (hacc : wfMap acc) (hl : wfMap l) :
    wfMap (l.foldl (fun a e => mapSet a e.1 e.2) acc) := by
  induction l generalizing acc with
  | nil => exact hacc
  | cons e rest ih =>
    simp only [List.foldl_cons]
    exact ih (mapSet acc e.1 e.2)
      (wfMap_mapSet acc e.1 e.2 hacc (hl e (by simp)))
      (fun x hx => hl x (by simp [hx]))

theorem wfMap_foldl_skip (P l acc : HMap) (hacc : wfMap acc) (hl : wfMap l) :
    wfMap (l.foldl
      (fun a e => if mapHasKey P e.1 then a else mapSet a e.1 e.2) acc) := by
  induction l generalizing acc with
  | nil => exact hacc
  | cons e rest ih =>
    simp only [List.foldl_cons]
    by_cases hp : mapHasKey P e.1
    · rw [if_pos hp]
      exact ih acc hacc (fun x hx => hl x (by simp [hx]))
    · rw [if_neg hp]
      exact ih (mapSet acc e.1 e.2)
        (wfMap_mapSet acc e.1 e.2 hacc (hl e (by simp)))
        (fun x hx => hl x (by simp [hx]))

theorem headersWF_MergeM (h o : HeadersM) (hh : headersWF h)
    (ho : headersWF o) : headersWF (MergeM h o) := by
  exact ⟨wfMap_foldl_set _ _ hh.1 ho.1, wfMap_foldl_skip _ _ _ hh.2 ho.2⟩

theorem headersWF_new : headersWF NewHeadersM := ⟨wfMap_nil, wfMap_nil⟩

theorem headersWF_MergeHeadersM (a b : HeadersM) (ha : headersWF a)
    (hb : headersWF b) : headersWF (MergeHeadersM a b) :=
  headersWF_MergeM _ _ (headersWF_MergeM _ _ headersWF_new ha) hb

theorem setIntM_ok (h : HeadersM) (i : Int) (v : CVal) :
    ∃ h', setIntM h i v = .ok h' := by
  unfold setIntM
  by_cases hc : i = 1 ∨ i = 2
  · exact ⟨_, by rw [if_pos hc]⟩
  · exact ⟨_, by rw [if_neg hc]⟩

theorem SetM_ok (h : HeadersM) (k v : CVal) (hk : wfKeyB k = true) :
    ∃ h', SetM h k v = .ok h' := by
  cases k with
  | int i => exact setIntM_ok h i v
  | txt s =>
    unfold SetM
    dsimp only
    by_cases hc : getCommonHeader s ≠ 0
    · rw [if_pos hc]
      exact setIntM_ok h _ v
    · rw [if_neg hc]
      exact ⟨_, rfl⟩
  | bts b => simp [wfKeyB] at hk
  | arr l => simp [wfKeyB] at hk
  | mp l => simp [wfKeyB] at hk
  | tag n w => simp [wfKeyB] at hk

theorem SetProtectedM_ok (h : HeadersM) (k v : CVal) (hk : wfKeyB k = true) :
    ∃ h', SetProtectedM h k v = .ok h' := by
  cases k with
  | int i => exact ⟨_, rfl⟩
  | txt s =>
    unfold SetProtectedM
    dsimp only
    by_cases hc : getCommonHeader s ≠ 0
    · rw [if_pos hc]
      exact ⟨_, rfl⟩
    · rw [if_neg hc]
      exact ⟨_, rfl⟩
  | bts b => simp [wfKeyB] at hk
  | arr l => simp [wfKeyB] at hk
  | mp l => simp [wfKeyB] at hk
  | tag n w => simp [wfKeyB] at hk

theorem setAllUnprotected_ok (m : HMap) (hm : wfMap m) :
    ∀ h, ∃ h', setAllUnprotected h m = .ok h' := by
  induction m with
  | nil => exact fun h => ⟨h, rfl⟩
  | cons e rest ih =>
    intro h
    obtain ⟨k, v⟩ := e
    obtain ⟨h1, hh1⟩ := SetM_ok h k v (hm (k, v) (by simp))
    obtain ⟨h2, hh2⟩ := ih (fun x hx => hm x (by simp [hx])) h1
    refine ⟨h2, ?_⟩
    unfold setAllUnprotected
    rw [hh1]
    exact hh2

theorem setAllProtected_ok (m : HMap) (hm : wfMap m) :
    ∀ h, ∃ h', setAllProtected h m = .ok h' := by
  induction m with
  | nil => exact fun h => ⟨h, rfl⟩
  | cons e rest ih =>
    intro h
    obtain ⟨k, v⟩ := e
    obtain ⟨h1, hh1⟩ := SetProtectedM_ok h k v (hm (k, v) (by simp))
    obtain ⟨h2, hh2⟩ := ih (fun x hx => hm x (by simp [hx])) h1
    refine ⟨h2, ?_⟩
    unfold setAllProtected
    rw [hh1]
    exact hh2

theorem newHeadersM_ok (pm um : HMap) (hpm : wfMap pm) (hum : wfMap um) :
    ∃ h, newHeadersM (cborMarshal (.mp pm)) um = .ok h := by
  obtain ⟨h1, hh1⟩ := setAllUnprotected_ok um hum NewHeadersM
  obtain ⟨h2, hh2⟩ := setAllProtected_ok pm hpm h1
  refine ⟨h2, ?_⟩
  unfold newHeadersM
  rw [hh1]
  simp only [bind, Except.bind]
  rw [cborUnmarshal_marshal]
  exact hh2

theorem getHeadersM_eq (s : MSigner) :
    s.GetHeadersM
      = .ok (MergeHeadersM s.Headers ⟨[(.int 1, .int s.alg.Value)], []⟩) := rfl

theorem sign1SignM_eq (mh sh : HeadersM) (key : MPrivKey) (a : MAlg)
    (payload external sig : List Nat)
    (hsig : (MSigner.mk sh key a).SignM
      (sign1DigestRaw
        (cborMarshal (.mp (MergeHeadersM mh
          (MergeHeadersM sh ⟨[(.int 1, .int a.Value)], []⟩)).protectedH))
        external payload) = .ok sig) :
    sign1SignM ⟨mh, some ⟨sh, key, a⟩, payload⟩ external
      = .ok ⟨cborMarshal (.mp (MergeHeadersM mh
            (MergeHeadersM sh ⟨[(.int 1, .int a.Value)], []⟩)).protectedH),
          (MergeHeadersM mh
            (MergeHeadersM sh ⟨[(.int 1, .int a.Value)], []⟩)).unprotectedH,
          payload, sig⟩ := by
  unfold sign1SignM
  dsimp only
  rw [getHeadersM_eq]
  simp only [bind, Except.bind]
  rw [hsig]

theorem roundtrip_kind (a : MAlg) (key : MPrivKey) (sh : HeadersM)
    (digest : List Nat)
    (hav : a.Hash = 0 ∨ hashAvailable a.Hash = true)
    (hgood : keyGood key)
    (hcurve : ∀ k, key = .ec k →
      a.CurveBits = k.pub.curveBits ∧ curveByteSize k.pub.curveBits ≠ 0) :
    ∃ sig, (MSigner.mk sh key a).SignM digest = .ok sig ∧
      (MVerifier.mk (pubOf key) a).Verify digest sig = none := by
  have havn : ¬(a.Hash > 0 ∧ ¬hashAvailable a.Hash = true) := by
    rcases hav with h | h <;> simp [h]
  cases key with
  | rsa k =>
    refine ⟨k.signO (if a.Hash > 0 then modelHash a.Hash digest else digest),
      ?_, ?_⟩
    · unfold MSigner.SignM MSigner.GetHashM
      rw [if_neg havn]
    · unfold MVerifier.Verify MVerifier.GetHashM
      rw [if_neg havn]
      dsimp only [pubOf]
      rw [if_pos (hgood (if a.Hash > 0 then modelHash a.Hash digest else digest))]
  | ed25519 k =>
    refine ⟨k.signO (if a.Hash > 0 then modelHash a.Hash digest else digest),
      ?_, ?_⟩
    · unfold MSigner.SignM MSigner.GetHashM
      rw [if_neg havn]
    · unfold MVerifier.Verify MVerifier.GetHashM
      rw [if_neg havn]
      dsimp only [pubOf]
      rw [if_pos (hgood (if a.Hash > 0 then modelHash a.Hash digest else digest))]
  | ec k =>
    obtain ⟨hcb, hn⟩ := hcurve k rfl
    set d' := (if a.Hash > 0 then modelHash a.Hash digest else digest) with hd'
    obtain ⟨ha1, ha2, ha3, hb1, hb2, hv⟩ := hgood d'
    set n := curveByteSize k.pub.curveBits with hn'
    set r := (k.signO d').1 with hr
    set sv := (k.signO d').2 with hsv
    have hbr := i2osp_some r n (by rw [hn']; exact hn) hb1
    have hbs := i2osp_some sv n (by rw [hn']; exact hn) hb2
    have hlenr := i2osp_length _ _ _ hbr
    have hlens := i2osp_length _ _ _ hbs
    refine ⟨(List.replicate (n - (bytesBE r).length) 0 ++ bytesBE r)
      ++ (List.replicate (n - (bytesBE sv).length) 0 ++ bytesBE sv), ?_, ?_⟩
    · unfold MSigner.SignM MSigner.GetHashM
      rw [if_neg havn]
      dsimp only
      rw [← hd', ← hr, ← hsv, ← hn']
      rw [if_neg (by simpa using ⟨ha1, ha2, ha3⟩)]
      rw [hbr, hbs]
    · unfold MVerifier.Verify MVerifier.GetHashM
      rw [if_neg havn]
      dsimp only [pubOf]
      rw [← hd', hcb, ← hn']
      rw [if_neg (by
        rw [List.length_append, hlenr, hlens]
        omega)]
      have htake : List.take n ((List.replicate (n - (bytesBE r).length) 0
            ++ bytesBE r)
          ++ (List.replicate (n - (bytesBE sv).length) 0 ++ bytesBE sv))
          = List.replicate (n - (bytesBE r).length) 0 ++ bytesBE r :=
        List.take_left' hlenr
      have hdrop : List.drop n ((List.replicate (n - (bytesBE r).length) 0
            ++ bytesBE r)
          ++ (List.replicate (n - (bytesBE sv).length) 0 ++ bytesBE sv))
          = List.replicate (n - (bytesBE sv).length) 0 ++ bytesBE sv :=
        List.drop_left' hlenr
      rw [htake, hdrop]
      rw [fromBytesBE_append_zeros, bytesBE_fold,
        fromBytesBE_append_zeros, bytesBE_fold]
      rw [if_pos hv]

theorem c1_core (a : MAlg) (key : MPrivKey) (sh mh : HeadersM)
    (payload external : List Nat) (cbSet : Bool)
    (hav : a.Hash = 0 ∨ hashAvailable a.Hash = true)
    (hgood : keyGood key)
    (hcurve : ∀ k, key = .ec k →
      a.CurveBits = k.pub.curveBits ∧ curveByteSize k.pub.curveBits ≠ 0)
    (hwfs : headersWF sh) (hwfm : headersWF mh) :
    ∃ wire dm,
      EncodeWithExternalM (.sign1 ⟨mh, some ⟨sh, key, a⟩, payload⟩) external
        = .ok wire ∧
      DecodeWithExternalM wire external
        (some ⟨fun _ => .ok [⟨pubOf key, a⟩], cbSet⟩) = (some dm, none) ∧
      dm.GetContent = payload := by
  set SH := MergeHeadersM sh ⟨[(.int 1, .int a.Value)], []⟩ with hSH
  set H := MergeHeadersM mh SH with hH
  set ph := cborMarshal (.mp H.protectedH) with hph
  set digest := sign1DigestRaw ph external payload with hdig
  obtain ⟨sig, hsig, hverify⟩ := roundtrip_kind a key sh digest hav hgood hcurve
  have hwfSH : headersWF SH := headersWF_MergeHeadersM _ _ hwfs
    ⟨by
      intro e he
      simp only [List.mem_singleton] at he
      subst he
      rfl,
     wfMap_nil⟩
  have hwfH : headersWF H := headersWF_MergeHeadersM _ _ hwfm hwfSH
  obtain ⟨hd, hnh⟩ := newHeadersM_ok H.protectedH H.unprotectedH hwfH.1 hwfH.2
  rw [← hph] at hnh
  have henc := sign1SignM_eq mh sh key a payload external sig hsig
  refine ⟨cborMarshal (.tag 18
      (sign1StructToCV ⟨ph, H.unprotectedH, payload, sig⟩)),
    .sign1 ⟨hd, none, payload⟩, ?_, ?_, rfl⟩
  · unfold EncodeWithExternalM
    dsimp only
    rw [henc]
    simp only [bind, Except.bind]
  · unfold DecodeWithExternalM
    rw [cborUnmarshal_marshal]
    dsimp only
    unfold decodeSign1Body
    rw [cvToSign1Struct_roundtrip]
    dsimp only
    unfold newSign1MessageM
    dsimp only
    rw [hnh]
    simp only [bind, Except.bind]
    unfold sign1GetDigest
    dsimp only
    rw [← hdig]
    unfold verifySignatureM
    dsimp only
    unfold verifyLoop
    rw [hverify]
    rfl

theorem getAlg_name (algName : String) (a : MAlg)
    (hga : getAlg algName = some a) : a.Name = algName := by
  unfold getAlg at hga
  have h := List.find?_some hga
  simpa using h

theorem newSigner_rsa_kind (algName : String) (a : MAlg) (key : MPrivKey)
    (s0 : MSigner) (hga : getAlg algName = some a) (hTyp : a.Typ = .keyRSA)
    (hs : NewSignerM algName key = .ok s0) : ∃ k, key = .rsa k := by
  cases key with
  | rsa k => exact ⟨k, rfl⟩
  | ec k =>
    unfold NewSignerM at hs
    rw [hga] at hs
    dsimp only at hs
    rw [if_neg (by simp [hTyp])] at hs
    rw [if_pos (by simp [hTyp])] at hs
    cases hs
  | ed25519 k =>
    unfold NewSignerM at hs
    rw [hga] at hs
    dsimp only at hs
    rw [if_neg (by simp [hTyp])] at hs
    rw [if_pos (by simp [hTyp])] at hs
    cases hs

theorem newSigner_ec_kind (algName : String) (a : MAlg) (key : MPrivKey)
    (s0 : MSigner) (hga : getAlg algName = some a) (hTyp : a.Typ = .keyECDSA)
    (hs : NewSignerM algName key = .ok s0) : ∃ k, key = .ec k := by
  cases key with
  | ec k => exact ⟨k, rfl⟩
  | rsa k =>
    unfold NewSignerM at hs
    rw [hga] at hs
    dsimp only at hs
    rw [if_neg (by simp [hTyp])] at hs
    rw [if_pos (by simp [hTyp])] at hs
    cases hs
  | ed25519 k =>
    unfold NewSignerM at hs
    rw [hga] at hs
    dsimp only at hs
    rw [if_neg (by simp [hTyp])] at hs
    rw [if_pos (by simp [hTyp])] at hs
    cases hs

theorem newSigner_ed_kind (algName : String) (a : MAlg) (key : MPrivKey)
    (s0 : MSigner) (hga : getAlg algName = some a) (hTyp : a.Typ = .keyED25519)
    (hs : NewSignerM algName key = .ok s0) : ∃ k, key = .ed25519 k := by
  cases key with
  | ed25519 k => exact ⟨k, rfl⟩
  | rsa k =>
    unfold NewSignerM at hs
    rw [hga] at hs
    dsimp only at hs
    rw [if_neg (by simp [hTyp])] at hs
    rw [if_pos (by simp [hTyp])] at hs
    cases hs
  | ec k =>
    unfold NewSignerM at hs
    rw [hga] at hs
    dsimp only at hs
    rw [if_neg (by simp [hTyp])] at hs
    rw [if_pos (by simp [hTyp])] at hs
    cases hs

theorem newSigner_rsa_inv (algName : String) (a : MAlg) (k : MRsaPriv)
    (s : MSigner) (hga : getAlg algName = some a) (hTyp : a.Typ = .keyRSA)
    (hs : NewSignerM algName (.rsa k) = .ok s) :
    s = ⟨NewHeadersM, .rsa k, a⟩ ∧
    ¬(a.MinKeySize > 0 ∧ a.MinKeySize > rsaSize k.pub.modulus * 8) := by
  unfold NewSignerM at hs
  rw [hga] at hs
  dsimp only at hs
  rw [if_neg (by simp [hTyp])] at hs
  rw [if_neg (by simp [hTyp])] at hs
  by_cases hmin : (a.MinKeySize > 0 ∧ a.MinKeySize > rsaSize k.pub.modulus * 8)
  · rw [if_pos hmin] at hs
    cases hs
  · rw [if_neg hmin] at hs
    exact ⟨(Except.ok.inj hs).symm, hmin⟩

theorem newSigner_ed_inv (algName : String) (a : MAlg) (k : MEdPriv)
    (s : MSigner) (hga : getAlg algName = some a) (hTyp : a.Typ = .keyED25519)
    (hs : NewSignerM algName (.ed25519 k) = .ok s) :
    s = ⟨NewHeadersM, .ed25519 k, a⟩ := by
  unfold NewSignerM at hs
  rw [hga] at hs
  dsimp only at hs
  rw [if_neg (by simp [hTyp])] at hs
  rw [if_neg (by simp [hTyp])] at hs
  exact (Except.ok.inj hs).symm

theorem c1_family_rsa (algName : String) (a : MAlg) (k : MRsaPriv) (s0 : MSigner)
    (sh mh : HeadersM) (payload external : List Nat) (cbSet : Bool)
    (ver : MVerifier)
    (hga : getAlg algName = some a) (hTyp : a.Typ = .keyRSA)
    (hav : a.Hash = 0 ∨ hashAvailable a.Hash = true)
    (hs : NewSignerM algName (.rsa k) = .ok s0)
    (hgood : keyGood (.rsa k))
    (hwfs : headersWF sh) (hwfm : headersWF mh)
    (hver : MSigner.ToVerifierM ⟨sh, s0.privateKey, s0.alg⟩ = .ok ver) :
    ∃ wire dm,
      EncodeWithExternalM (.sign1 ⟨mh, some ⟨sh, s0.privateKey, s0.alg⟩, payload⟩)
        external = .ok wire ∧
      DecodeWithExternalM wire external (some ⟨fun _ => .ok [ver], cbSet⟩)
        = (some dm, none) ∧
      dm.GetContent = payload := by
  obtain ⟨hs0, hmin⟩ := newSigner_rsa_inv algName a k s0 hga hTyp hs
  subst hs0
  dsimp only at hver ⊢
  have hToV : MSigner.ToVerifierM ⟨sh, .rsa k, a⟩ = .ok ⟨.rsa k.pub, a⟩ := by
    unfold MSigner.ToVerifierM
    dsimp only
    unfold NewVerifierM
    rw [getAlg_name algName a hga, hga]
    dsimp only
    rw [if_neg (by simp [hTyp])]
    rw [if_neg (by simp [hTyp])]
    rw [if_neg hmin]
  rw [hToV] at hver
  obtain rfl := Except.ok.inj hver
  exact c1_core a (.rsa k) sh mh payload external cbSet hav hgood
    (fun k' hk' => by cases hk') hwfs hwfm

theorem c1_family_ec (algName : String) (a : MAlg) (k : MEcPriv) (s0 : MSigner)
    (sh mh : HeadersM) (payload external : List Nat) (cbSet : Bool)
    (ver : MVerifier)
    (hga : getAlg algName = some a) (hTyp : a.Typ = .keyECDSA)
    (hav : a.Hash = 0 ∨ hashAvailable a.Hash = true)
    (hcbz : curveByteSize a.CurveBits ≠ 0)
    (hs : NewSignerM algName (.ec k) = .ok s0)
    (hgood : keyGood (.ec k))
    (hwfs : headersWF sh) (hwfm : headersWF mh)
    (hver : MSigner.ToVerifierM ⟨sh, s0.privateKey, s0.alg⟩ = .ok ver) :
    ∃ wire dm,
      EncodeWithExternalM (.sign1 ⟨mh, some ⟨sh, s0.privateKey, s0.alg⟩, payload⟩)
        external = .ok wire ∧
      DecodeWithExternalM wire external (some ⟨fun _ => .ok [ver], cbSet⟩)
        = (some dm, none) ∧
      dm.GetContent = payload := by
  obtain ⟨hs0, hcb⟩ := newSigner_ec_inv algName a k s0 hga hTyp hs
  subst hs0
  dsimp only at hver ⊢
  have hToV : MSigner.ToVerifierM ⟨sh, .ec k, a⟩ = .ok ⟨.ec k.pub, a⟩ := by
    unfold MSigner.ToVerifierM
    dsimp only
    unfold NewVerifierM
    rw [getAlg_name algName a hga, hga]
    dsimp only
    rw [if_neg (by simp [hTyp])]
    rw [if_neg (by simp [hTyp])]
    rw [if_neg (by rw [hcb]; exact fun h => h rfl)]
  rw [hToV] at hver
  obtain rfl := Except.ok.inj hver
  refine c1_core a (.ec k) sh mh payload external cbSet hav hgood ?_ hwfs hwfm
  intro k' hk'
  injection hk' with h
  subst h
  exact ⟨hcb, by rw [← hcb]; exact hcbz⟩

theorem c1_family_ed (algName : String) (a : MAlg) (k : MEdPriv) (s0 : MSigner)
    (sh mh : HeadersM) (payload external : List Nat) (cbSet : Bool)
    (ver : MVerifier)
    (hga : getAlg algName = some a) (hTyp : a.Typ = .keyED25519)
    (hav : a.Hash = 0 ∨ hashAvailable a.Hash = true)
    (hs : NewSignerM algName (.ed25519 k) = .ok s0)
    (hgood : keyGood (.ed25519 k))
    (hwfs : headersWF sh) (hwfm : headersWF mh)
    (hver : MSigner.ToVerifierM ⟨sh, s0.privateKey, s0.alg⟩ = .ok ver) :
    ∃ wire dm,
      EncodeWithExternalM (.sign1 ⟨mh, some ⟨sh, s0.privateKey, s0.alg⟩, payload⟩)
        external = .ok wire ∧
      DecodeWithExternalM wire external (some ⟨fun _ => .ok [ver], cbSet⟩)
        = (some dm, none) ∧
      dm.GetContent = payload := by
  have hs0 := newSigner_ed_inv algName a k s0 hga hTyp hs
  subst hs0
  dsimp only at hver ⊢
  have hToV : MSigner.ToVerifierM ⟨sh, .ed25519 k, a⟩ = .ok ⟨.ed25519 k.pub, a⟩ := by
    unfold MSigner.ToVerifierM
    dsimp only
    unfold NewVerifierM
    rw [getAlg_name algName a hga, hga]
    dsimp only
    rw [if_neg (by simp [hTyp])]
    rw [if_neg (by simp [hTyp])]
  rw [hToV] at hver
  obtain rfl := Except.ok.inj hver
  exact c1_core a (.ed25519 k) sh mh payload external cbSet hav hgood
    (fun k' hk' => by cases hk') hwfs hwfm

/-- C1: for every supported signing algorithm (PS256, PS384, PS512,
ES256, ES384, ES512, EdDSA) and every valid key for it (the external
crypto primitives verify what they sign), encoding a single-signer
message built with a signer for that key, then decoding the produced
bytes with a config whose `GetVerifiers` returns the matching verifier,
succeeds with no error and yields a message whose content equals the
original content. -/
theorem claim_C1_roundtrip (algName : String) (key : MPrivKey) (s0 : MSigner)
    (sh mh : HeadersM) (payload external : List Nat) (cbSet : Bool)
    (ver : MVerifier)
    (halg : algName ∈ supportedAlgs)
    (hs : NewSignerM algName key = .ok s0)
    (hgood : keyGood key)
    (hwfs : headersWF sh) (hwfm : headersWF mh)
    (hver : MSigner.ToVerifierM ⟨sh, s0.privateKey, s0.alg⟩ = .ok ver) :
    ∃ wire dm,
      EncodeWithExternalM (.sign1 ⟨mh, some ⟨sh, s0.privateKey, s0.alg⟩, payload⟩)
        external = .ok wire ∧
      DecodeWithExternalM wire external (some ⟨fun _ => .ok [ver], cbSet⟩)
        = (some dm, none) ∧
      dm.GetContent = payload := by
  simp only [supportedAlgs, List.mem_cons, List.not_mem_nil, or_false] at halg
  rcases halg with rfl | rfl | rfl | rfl | rfl | rfl | rfl
  · obtain ⟨k, rfl⟩ := newSigner_rsa_kind ("PS256")
      ⟨"PS256", -37, 5, .keyRSA, 2048, 0⟩ key s0 rfl rfl hs
    exact c1_family_rsa ("PS256") ⟨"PS256", -37, 5, .keyRSA, 2048, 0⟩ k s0 sh mh
      payload external cbSet ver rfl rfl (Or.inr rfl) hs hgood hwfs hwfm hver
  · obtain ⟨k, rfl⟩ := newSigner_rsa_kind ("PS384")
      ⟨"PS384", -38, 6, .keyRSA, 2048, 0⟩ key s0 rfl rfl hs
    exact c1_family_rsa ("PS384") ⟨"PS384", -38, 6, .keyRSA, 2048, 0⟩ k s0 sh mh
      payload external cbSet ver rfl rfl (Or.inr rfl) hs hgood hwfs hwfm hver
  · obtain ⟨k, rfl⟩ := newSigner_rsa_kind ("PS512")
      ⟨"PS512", -39, 7, .keyRSA, 2048, 0⟩ key s0 rfl rfl hs
    exact c1_family_rsa ("PS512") ⟨"PS512", -39, 7, .keyRSA, 2048, 0⟩ k s0 sh mh
      payload external cbSet ver rfl rfl (Or.inr rfl) hs hgood hwfs hwfm hver
  · obtain ⟨k, rfl⟩ := newSigner_ec_kind ("ES256")
      ⟨"ES256", -7, 5, .keyECDSA, 0, 256⟩ key s0 rfl rfl hs
    exact c1_family_ec ("ES256") ⟨"ES256", -7, 5, .keyECDSA, 0, 256⟩ k s0 sh mh
      payload external cbSet ver rfl rfl (Or.inr rfl) (by decide) hs hgood
      hwfs hwfm hver
  · obtain ⟨k, rfl⟩ := newSigner_ec_kind ("ES384")
      ⟨"ES384", -35, 6, .keyECDSA, 0, 384⟩ key s0 rfl rfl hs
    exact c1_family_ec ("ES384") ⟨"ES384", -35, 6, .keyECDSA, 0, 384⟩ k s0 sh mh
      payload external cbSet ver rfl rfl (Or.inr rfl) (by decide) hs hgood
      hwfs hwfm hver
  · obtain ⟨k, rfl⟩ := newSigner_ec_kind ("ES512")
      ⟨"ES512", -36, 7, .keyECDSA, 0, 521⟩ key s0 rfl rfl hs
    exact c1_family_ec ("ES512") ⟨"ES512", -36, 7, .keyECDSA, 0, 521⟩ k s0 sh mh
      payload external cbSet ver rfl rfl (Or.inr rfl) (by decide) hs hgood
      hwfs hwfm hver
  · obtain ⟨k, rfl⟩ := newSigner_ed_kind ("EdDSA")
      ⟨"EdDSA", -8, 0, .keyED25519, 0, 0⟩ key s0 rfl rfl hs
    exact c1_family_ed ("EdDSA") ⟨"EdDSA", -8, 0, .keyED25519, 0, 0⟩ k s0 sh mh
      payload external cbSet ver rfl rfl (Or.inl rfl) hs hgood hwfs hwfm hver

/-- C1 witness: an EdDSA signer with a concrete model key round-trips a
`[7]` payload through encode and decode with no error. -/
theorem claim_C1_witness :
    ∃ wire dm,
      EncodeWithExternalM (.sign1 ⟨NewHeadersM, some ⟨NewHeadersM,
          .ed25519 ⟨⟨fun d s => d == s⟩, fun d => d⟩,
          ⟨"EdDSA", -8, 0, .keyED25519, 0, 0⟩⟩, [7]⟩) []
        = .ok wire ∧
      DecodeWithExternalM wire []
        (some ⟨fun _ => .ok [⟨.ed25519 ⟨fun d s => d == s⟩,
          ⟨"EdDSA", -8, 0, .keyED25519, 0, 0⟩⟩], false⟩)
        = (some dm, none) ∧
      dm.GetContent = [7] := by
  exact claim_C1_roundtrip ("EdDSA")
    (.ed25519 ⟨⟨fun d s => d == s⟩, fun d => d⟩)
    ⟨NewHeadersM, .ed25519 ⟨⟨fun d s => d == s⟩, fun d => d⟩,
      ⟨"EdDSA", -8, 0, .keyED25519, 0, 0⟩⟩
    NewHeadersM NewHeadersM [7] [] false
    ⟨.ed25519 ⟨fun d s => d == s⟩, ⟨"EdDSA", -8, 0, .keyED25519, 0, 0⟩⟩
    (by simp [supportedAlgs]) (by rfl)
    (by intro d; simp)
    headersWF_new headersWF_new (by rfl)

end GoCose
